import Mathlib

/-!
Verification development for the Orange_system ETL pipeline.

The definitions below are a shallow embedding of the Python sources:
  * `src/extractor/src/utils/tools.py` (batch extraction, NaN sanitization,
    table-name selection, checkpoint file helpers),
  * `src/extractor/src/utils/extractor.py` (retry wrapper around a batch fetch),
  * `src/extractor/src/utils/orchestrator.py` (checkpoint-driven copy loop),
  * `src/transformer/src/utils/transformer.py` (KPI calculation, suffix→operator
    resolution, detail-row insertion),
  * `src/transformer/src/utils/config.py` (declarative KPI formula table).

Machine floats are modelled by `ℚ` plus an explicit NaN constructor where NaN
matters; database state is threaded explicitly as association lists; fallible
Python code returns `Option` or an explicit outcome tag.
-/

namespace OrangeSystem

/-! ## Python values and the destination database

A row handed to `load_batch_into_database` is a tuple `(date_heure, indicateur,
valeur)`; we model tuple components by `PyVal`.  A float NaN is its own
constructor (`PyVal.nan`); `PyVal.none` is Python `None` (SQL NULL). -/

inductive PyVal where
  | date (d : Nat)
  | str (s : String)
  | float (q : ℚ)
  | int (n : Int)
  | nan
  | none
deriving DecidableEq, Repr

/-- The NaN sanitization step of `load_batch_into_database`
(`tools.py` lines 424-433): `if isinstance(val, float) and math.isnan(val):
sanitized_row.append(None) else sanitized_row.append(val)`. -/
def sanitizeVal : PyVal → PyVal
  | .nan => .none
  | v => v

/-- A destination database: table name ↦ list of stored rows (a row is the
tuple of inserted values, in column order `Date, indicateur, valeur`). -/
abbrev Dest := List (String × List (List PyVal))

/-- Rows currently stored in a destination table (no table ⇒ no rows). -/
def rowsAt (dest : Dest) (table : String) : List (List PyVal) :=
  match dest with
  | [] => []
  | (k, v) :: rest => if k = table then v else rowsAt rest table

/-- Append rows to a table's entry (first matching key, as a dict would). -/
def addRows (dest : Dest) (table : String) (rows : List (List PyVal)) : Dest :=
  match dest with
  | [] => [(table, rows)]
  | (k, v) :: rest =>
      if k = table then (k, v ++ rows) :: rest else (k, v) :: addRows rest table rows

/-- Whether the destination table exists (`SHOW TABLES LIKE ...`). -/
def hasTable (dest : Dest) (table : String) : Bool :=
  match dest with
  | [] => false
  | (k, _) :: rest => if k = table then true else hasTable rest table

/-- `tools.load_batch_into_database` (lines 398-445): create the destination
table if absent (3-column schema), rewrite every float NaN in the batch to
`None`, and insert the sanitized batch.  (The SQL error/rollback path and the
`batch[0]` access — which would raise `IndexError` on an empty batch, a case
its only caller never produces — are not modelled.) -/
def load_batch_into_database (batch : List (List PyVal)) (dest : Dest) (table : String) : Dest :=
  let dest1 := if hasTable dest table then dest else dest ++ [(table, [])]
  addRows dest1 table (batch.map (fun row => row.map sanitizeVal))

theorem rowsAt_addRows_self (dest : Dest) (table : String) (rows : List (List PyVal)) :
    rowsAt (addRows dest table rows) table = rowsAt dest table ++ rows := by
  induction dest with
  | nil => simp [addRows, rowsAt]
  | cons hd tl ih =>
      obtain ⟨k, v⟩ := hd
      by_cases h : k = table <;> simp [addRows, rowsAt, h, ih]

theorem rowsAt_addRows_ne (dest : Dest) (t t' : String) (rows : List (List PyVal))
    (h : t ≠ t') : rowsAt (addRows dest t rows) t' = rowsAt dest t' := by
  induction dest with
  | nil => simp [addRows, rowsAt, if_neg h]
  | cons hd tl ih =>
      obtain ⟨k, v⟩ := hd
      by_cases hk : k = t
      · subst hk; simp [addRows, rowsAt, if_neg h, ih]
      · simp [addRows, rowsAt, hk, ih]

theorem rowsAt_append_new (dest : Dest) (t t' : String) :
    rowsAt (dest ++ [(t, [])]) t' = rowsAt dest t' := by
  induction dest with
  | nil => by_cases h : t = t' <;> simp [rowsAt, h]
  | cons hd tl ih =>
      obtain ⟨k, v⟩ := hd
      by_cases h : k = t' <;> simp [rowsAt, h, ih]

theorem rowsAt_load_batch (batch : List (List PyVal)) (dest : Dest) (table : String) :
    rowsAt (load_batch_into_database batch dest table) table
      = rowsAt dest table ++ batch.map (fun row => row.map sanitizeVal) := by
  unfold load_batch_into_database
  by_cases h : hasTable dest table
  · simp [h, rowsAt_addRows_self]
  · simp [h, rowsAt_addRows_self, rowsAt_append_new]

theorem rowsAt_load_batch_ne (batch : List (List PyVal)) (dest : Dest) (t t' : String)
    (h : t ≠ t') :
    rowsAt (load_batch_into_database batch dest t) t' = rowsAt dest t' := by
  unfold load_batch_into_database
  by_cases hh : hasTable dest t
  · simp [hh, rowsAt_addRows_ne _ _ _ _ h]
  · simp [hh, rowsAt_addRows_ne _ _ _ _ h, rowsAt_append_new]

/-- **C9.** For every batch of rows passed to `load_batch_into_database`, every
floating-point NaN value is rewritten to the null marker (`None`) before
insertion into the destination table, and every non-NaN value is inserted
unchanged: the rows appended to the destination table are exactly the batch
with `sanitizeVal` applied to each value, where `sanitizeVal` maps NaN to the
null marker and leaves every other value untouched. -/
theorem C9_nan_sanitization :
    (∀ (batch : List (List PyVal)) (dest : Dest) (table : String),
      rowsAt (load_batch_into_database batch dest table) table
        = rowsAt dest table ++ batch.map (fun row => row.map sanitizeVal)) ∧
    sanitizeVal PyVal.nan = PyVal.none ∧
    (∀ v : PyVal, sanitizeVal v = v ∨ v = PyVal.nan) := by
  refine ⟨rowsAt_load_batch, rfl, ?_⟩
  intro v
  cases v <;> simp [sanitizeVal]

/-! ## KPI formula table and `Transformer.calculate_kpis`

`transformer.py` lines 111-129.  A KPI definition (`config.py`) has an ordered
numerator counter list, an optional denominator list, and a formula lambda.
Counters missing from the per-suffix counter map default to `0`
(`counters.get(counter, 0)`).  The config formulas return `None` on an
all-zero denominator via their explicit `if sum(denom) != 0 else None` guard,
and `calculate_kpis` additionally converts any exception (e.g. the `TypeError`
of an arity mismatch, or `IndexError` of a too-short argument list) to `None`;
the `Option` results below model both. -/

inductive Formula where
  | arity1 (f : List ℚ → Option ℚ)
  | arity2 (f : List ℚ → List ℚ → Option ℚ)

structure KpiConfig where
  numerator : List String
  denominator : Option (List String)
  formula : Formula

/-- Dictionary lookup (`dict.get`): first binding of the key, if any. -/
def lookupKey {β : Type} (m : List (String × β)) (c : String) : Option β :=
  match m with
  | [] => Option.none
  | (k, v) :: rest => if k = c then some v else lookupKey rest c

/-- `[counters.get(counter, 0) for counter in ...]` — resolve a counter-name
list against the counter map, defaulting missing counters to zero. -/
def resolveCounters (counters : List (String × ℚ)) (names : List String) : List ℚ :=
  names.map (fun c => (lookupKey counters c).getD 0)

/-- One iteration of `Transformer.calculate_kpis`: call the formula with the
resolved numerator (and denominator when the config declares one).  A
formula/denominator arity mismatch raises `TypeError` in Python, caught and
turned into `None`. -/
def calculate_kpi (counters : List (String × ℚ)) (cfg : KpiConfig) : Option ℚ :=
  let num := resolveCounters counters cfg.numerator
  match cfg.denominator, cfg.formula with
  | some ds, .arity2 f => f num (resolveCounters counters ds)
  | Option.none, .arity1 f => f num
  | _, _ => Option.none

/-- `Transformer.calculate_kpis`: evaluate every KPI of a table's config. -/
def calculate_kpis (counters : List (String × ℚ)) (cfgs : List (String × KpiConfig)) :
    List (String × Option ℚ) :=
  cfgs.map (fun kc => (kc.1, calculate_kpi counters kc.2))

/-- The ratio formula shape used throughout `config.py`
(`lambda num, denom: (sum(num) / sum(denom)) * 100 if sum(denom) != 0 else None`). -/
def ratioTimes100 (num denom : List ℚ) : Option ℚ :=
  if denom.sum ≠ 0 then some (num.sum / denom.sum * 100) else Option.none

/-- `config.py` `tables_mgw` KPI `pmRtpReceivedPkts`
(`lambda num: (num[0] * 2147483648 + num[1])`; a short list would raise
`IndexError`, caught by `calculate_kpis` into `None`). -/
def pmRtpReceivedPkts_config : KpiConfig :=
  { numerator := ["pmRtpReceivedPktsHi", "pmRtpReceivedPktsLo"]
    denominator := Option.none
    formula := .arity1 (fun num =>
      match num with
      | hi :: lo :: _ => some (hi * 2147483648 + lo)
      | _ => Option.none) }

/-- `config.py` `tables_mgw` KPI `PktLoss`
(`lambda num, denom: (sum(num) / ((denom[0] * 2147483648 + denom[1]) + denom[2])) * 100
if ((denom[0] * 2147483648 + denom[1]) + denom[2]) != 0 else None`). -/
def pktLoss_config : KpiConfig :=
  { numerator := ["pmRtpDiscardedPkts", "pmRtpLostPkts"]
    denominator := some ["pmRtpReceivedPktsHi", "pmRtpReceivedPktsLo", "pmRtpLostPkts"]
    formula := .arity2 (fun num denom =>
      match denom with
      | d0 :: d1 :: d2 :: _ =>
          if (d0 * 2147483648 + d1) + d2 ≠ 0 then
            some (num.sum / ((d0 * 2147483648 + d1) + d2) * 100)
          else Option.none
      | _ => Option.none) }

/-- **C7.** The hi/lo 64-bit counter reconstruction in the MGW formula table
uses the exact split constant `2147483648 = 2^31`: `pmRtpReceivedPkts`
computes `hi * 2^31 + lo` for all hi/lo counter values, `PktLoss` rebuilds its
denominator as `(hi * 2^31 + lo) + lost`, and in particular hi = 1, lo = 5
reconstruct to `1 * 2^31 + 5`. -/
theorem C7_hi_lo_reconstruction :
    (∀ hi lo : ℚ,
      calculate_kpi [("pmRtpReceivedPktsHi", hi), ("pmRtpReceivedPktsLo", lo)]
          pmRtpReceivedPkts_config
        = some (hi * 2 ^ 31 + lo)) ∧
    (2147483648 : ℚ) = 2 ^ 31 ∧
    (∀ dsc lst hi lo : ℚ,
      calculate_kpi
          [("pmRtpDiscardedPkts", dsc), ("pmRtpLostPkts", lst),
           ("pmRtpReceivedPktsHi", hi), ("pmRtpReceivedPktsLo", lo)]
          pktLoss_config
        = if (hi * 2 ^ 31 + lo) + lst ≠ 0 then
            some ((dsc + lst) / ((hi * 2 ^ 31 + lo) + lst) * 100)
          else Option.none) ∧
    calculate_kpis [("pmRtpReceivedPktsHi", 1), ("pmRtpReceivedPktsLo", 5)]
        [("pmRtpReceivedPkts", pmRtpReceivedPkts_config)]
      = [("pmRtpReceivedPkts", some ((1 : ℚ) * 2 ^ 31 + 5))] := by
  refine ⟨?_, by norm_num, ?_, ?_⟩
  · intro hi lo
    simp [calculate_kpi, pmRtpReceivedPkts_config, resolveCounters, lookupKey]
    norm_num
  · intro dsc lst hi lo
    simp [calculate_kpi, pktLoss_config, resolveCounters, lookupKey]
    norm_num
  · simp [calculate_kpis, calculate_kpi, pmRtpReceivedPkts_config, resolveCounters,
      lookupKey]
    norm_num

/-- **C5.** `calculate_kpis` resolves counters missing from the counter map to
zero, and a formula whose denominator sums to zero yields a null KPI value
(preserved in the output, not coerced to zero and not an exception); in
particular, for the counter map `{a:10, b:0}` and a KPI with numerator `[a]`,
denominator `[b]`, formula `num/denom*100`, the evaluated value is null. -/
theorem C5_null_denominator :
    (∀ (counters : List (String × ℚ)) (ns : List String),
      (∀ c ∈ ns, lookupKey counters c = Option.none) →
      resolveCounters counters ns = ns.map (fun _ => (0 : ℚ))) ∧
    (∀ (counters : List (String × ℚ)) (num ds : List String),
      (resolveCounters counters ds).sum = 0 →
      calculate_kpi counters ⟨num, some ds, .arity2 ratioTimes100⟩ = Option.none) ∧
    calculate_kpis [("a", (10 : ℚ)), ("b", 0)]
        [("kpi", ⟨["a"], some ["b"], .arity2 ratioTimes100⟩)]
      = [("kpi", Option.none)] := by
  refine ⟨?_, ?_, ?_⟩
  · intro counters ns h
    exact List.map_congr_left (fun c hc => by rw [h c hc]; rfl)
  · intro counters num ds h
    simp [calculate_kpi, ratioTimes100, h]
  · simp [calculate_kpis, calculate_kpi, resolveCounters, lookupKey, ratioTimes100]

/-- Closed witness for `C5_null_denominator`: both hypothesis-bearing parts
applied at concrete inputs. -/
theorem C5_witness :
    resolveCounters [("x", (1 : ℚ))] ["y"] = [0] ∧
    calculate_kpi [("b", (0 : ℚ))] ⟨["a"], some ["b"], .arity2 ratioTimes100⟩
      = Option.none :=
  ⟨C5_null_denominator.1 [("x", (1 : ℚ))] ["y"] (by decide),
   C5_null_denominator.2.1 [("b", (0 : ℚ))] ["a"] ["b"]
     (by simp [resolveCounters, lookupKey])⟩

/-! ## Suffix → operator resolution (`Transformer.aggregate_by_suffix`)

`transformer.py` lines 136-144:
`df['operator'] = df['suffix'].str.lower().apply(lambda s: next((v for k, v in
self.suffix_operator_mapping.items() if k and k.lower() in s), 'Other'))`,
followed by `unmapped = set(df[df['operator'] == 'Other']['suffix'].unique())`
which is logged, while the rows themselves are kept.  Python's `str.lower` is
modelled by ASCII `Char.toLower` on the character list. -/

/-- Lower-cased character list of a string (`str.lower()`). -/
def low (s : String) : List Char := s.toList.map Char.toLower

/-- `startsWithCh nd hay`: `hay` begins with `nd`. -/
def startsWithCh : List Char → List Char → Bool
  | [], _ => true
  | _ :: _, [] => false
  | n :: ns, h :: hs => n == h && startsWithCh ns hs

/-- `isSubList nd hay`: Python's substring containment `nd in hay`. -/
def isSubList (nd : List Char) : List Char → Bool
  | [] => startsWithCh nd []
  | c :: rest => startsWithCh nd (c :: rest) || isSubList nd rest

/-- The per-suffix operator resolution: first mapping pair (in declared order)
whose non-empty key appears case-insensitively as a substring of the suffix;
`"Other"` when none matches.  (`if k` is Python string truthiness: the empty
key never matches.) -/
def resolveOperator (mapping : List (String × String)) (sfx : String) : String :=
  match mapping.find? (fun kv =>
      if kv.1 = "" then false else isSubList (low kv.1) (low sfx)) with
  | some kv => kv.2
  | Option.none => "Other"

/-- The `operator` column of `aggregate_by_suffix`: every row keeps its suffix
and gains the resolved operator (unmatched suffixes are kept with the
sentinel, not dropped). -/
def operatorColumn (mapping : List (String × String)) (sfxs : List String) :
    List (String × String) :=
  sfxs.map (fun s => (s, resolveOperator mapping s))

/-- The unmapped-suffix set logged by `aggregate_by_suffix`. -/
def unmappedSuffixes (mapping : List (String × String)) (sfxs : List String) :
    List String :=
  sfxs.filter (fun s => resolveOperator mapping s == "Other")

/-- **C6.** The resolved operator is the label of the first mapping entry (in
declared order) whose key appears case-insensitively as a substring of the
suffix, and the sentinel `"Other"` when no entry matches; unmatched suffixes
are flagged as unmapped and kept, not dropped.  In particular `"xyz-nw"` with
mapping `{"nw":"Inwi"}` resolves to `"Inwi"` and `"zzz"` resolves to
`"Other"`. -/
theorem C6_suffix_operator :
    (∀ (pre : List (String × String)) (k v : String) (post : List (String × String))
        (s : String),
      (∀ kv ∈ pre, kv.1 = "" ∨ isSubList (low kv.1) (low s) = false) →
      k ≠ "" → isSubList (low k) (low s) = true →
      resolveOperator (pre ++ (k, v) :: post) s = v) ∧
    (∀ (mapping : List (String × String)) (s : String),
      (∀ kv ∈ mapping, kv.1 = "" ∨ isSubList (low kv.1) (low s) = false) →
      resolveOperator mapping s = "Other") ∧
    resolveOperator [("nw", "Inwi")] "xyz-nw" = "Inwi" ∧
    resolveOperator [("nw", "Inwi")] "zzz" = "Other" ∧
    resolveOperator [("NW", "Inwi")] "XYZ-nw" = "Inwi" ∧
    operatorColumn [("nw", "Inwi")] ["xyz-nw", "zzz"]
      = [("xyz-nw", "Inwi"), ("zzz", "Other")] ∧
    unmappedSuffixes [("nw", "Inwi")] ["xyz-nw", "zzz"] = ["zzz"] := by
  have hnone : ∀ (mapping : List (String × String)) (s : String),
      (∀ kv ∈ mapping, kv.1 = "" ∨ isSubList (low kv.1) (low s) = false) →
      mapping.find? (fun kv =>
        if kv.1 = "" then false else isSubList (low kv.1) (low s)) = Option.none := by
    intro mapping s h
    refine List.find?_eq_none.mpr (fun kv hkv => ?_)
    rcases h kv hkv with h1 | h1 <;> simp [h1]
  refine ⟨?_, ?_, by decide, by decide, by decide, by decide, by decide⟩
  · intro pre k v post s hpre hk hsub
    unfold resolveOperator
    rw [List.find?_append, hnone pre s hpre,
      List.find?_cons_of_pos _ (by simp [hk, hsub])]
    rfl
  · intro mapping s h
    unfold resolveOperator
    rw [hnone mapping s h]

/-- Closed witness for `C6_suffix_operator`: its hypothesis-bearing parts
applied at concrete inputs (an empty key is skipped; a fully unmatched
mapping yields the sentinel). -/
theorem C6_witness :
    resolveOperator [("", "X"), ("nw", "Inwi")] "a-nw" = "Inwi" ∧
    resolveOperator [("nw", "Inwi")] "qq" = "Other" :=
  ⟨C6_suffix_operator.1 [("", "X")] "nw" "Inwi" [] "a-nw" (by decide) (by decide)
      (by decide),
   C6_suffix_operator.2.1 [("nw", "Inwi")] "qq" (by decide)⟩

/-! ## KPI detail-row insertion (`Transformer.insert_kpi_details`)

`transformer.py` lines 172-194: the INSERT's column list is always
`kpi_id, operator, suffix` plus every KPI name of the table's config;
`valid_kpis` drops the null KPI values of a row, a row whose `valid_kpis` is
empty is skipped with a warning, and each emitted tuple passes
`valid_kpis.get(kpi, None)` — i.e. the original value, with nulls as SQL
NULL — for every KPI column.  (Python's `valid_kpis` is a dict; the rows
produced by `calculate_kpis` have pairwise-distinct KPI keys.) -/

inductive Cell where
  | int (n : Int)
  | str (s : String)
  | num (q : ℚ)
  | null
deriving DecidableEq, Repr

structure DetailRow where
  kpi_id : Int
  operator : String
  suffix : String
  kpi_values : List (String × Option ℚ)
deriving DecidableEq, Repr

/-- `Transformer.insert_kpi_details`, returned as the INSERT's column list and
the list of emitted value tuples.  (`row.kpi_values.filter (·.2.isSome)` is
the code's `valid_kpis` dict, written out at both of its two use sites.) -/
def insert_kpi_details (kpiNames : List String) (batch : List DetailRow) :
    List String × List (List Cell) :=
  (["kpi_id", "operator", "suffix"] ++ kpiNames,
   batch.filterMap (fun row =>
     if row.kpi_values.filter (fun p => p.2.isSome) = [] then Option.none
     else some ([Cell.int row.kpi_id, Cell.str row.operator, Cell.str row.suffix] ++
       kpiNames.map (fun k =>
         match lookupKey (row.kpi_values.filter (fun p => p.2.isSome)) k with
         | some (some q) => Cell.num q
         | _ => Cell.null))))

theorem lookupKey_eq_none {β : Type} (l : List (String × β)) (k : String)
    (h : ∀ p ∈ l, p.1 ≠ k) : lookupKey l k = Option.none := by
  induction l with
  | nil => rfl
  | cons hd tl ih =>
      simp only [lookupKey, if_neg (h hd (List.mem_cons_self hd tl))]
      exact ih (fun p hp => h p (List.mem_cons_of_mem hd hp))

theorem lookupKey_filter_isSome (kvs : List (String × Option ℚ)) (k : String)
    (h : (kvs.map Prod.fst).Nodup) :
    lookupKey (kvs.filter (fun p => p.2.isSome)) k
      = match lookupKey kvs k with
        | some (some q) => some (some q)
        | _ => Option.none := by
  induction kvs with
  | nil => rfl
  | cons hd tl ih =>
      obtain ⟨k', v⟩ := hd
      simp only [List.map_cons, List.nodup_cons] at h
      obtain ⟨hk', htl⟩ := h
      by_cases hkk : k' = k
      · subst hkk
        cases v with
        | some q => simp [lookupKey]
        | none =>
            have : ∀ p ∈ tl.filter (fun p => p.2.isSome), p.1 ≠ k' := by
              intro p hp
              exact fun hEq => hk' (hEq ▸ List.mem_map_of_mem Prod.fst
                (List.mem_of_mem_filter hp))
            simp [lookupKey, List.filter_cons, lookupKey_eq_none _ _ this]
      · cases v with
        | some q => simp [lookupKey, List.filter_cons, hkk, ih htl]
        | none => simp [lookupKey, List.filter_cons, hkk, ih htl]

/-- **C4 counterexample.** The claim "the KPI columns whose value is null are
omitted from the insert" is false as stated: for a row whose KPI `k1` is
non-null and whose KPI `k2` is null, the INSERT's column list still contains
`k2`, and the emitted tuple has all `3 + 2` columns with an explicit NULL in
the `k2` position (rather than `3 + 1` columns with `k2` omitted). -/
theorem C4_counterexample :
    (insert_kpi_details ["k1", "k2"]
        [⟨1, "op", "sfx", [("k1", some (1 : ℚ)), ("k2", Option.none)]⟩]).1
      = ["kpi_id", "operator", "suffix", "k1", "k2"] ∧
    (insert_kpi_details ["k1", "k2"]
        [⟨1, "op", "sfx", [("k1", some (1 : ℚ)), ("k2", Option.none)]⟩]).2
      = [[Cell.int 1, Cell.str "op", Cell.str "sfx", Cell.num 1, Cell.null]] ∧
    ((insert_kpi_details ["k1", "k2"]
        [⟨1, "op", "sfx", [("k1", some (1 : ℚ)), ("k2", Option.none)]⟩]).2.map
      List.length) = [5] := by
  refine ⟨rfl, ?_, ?_⟩ <;> decide

/-- **C4 (amended).** A buffered KPI detail row whose every computed KPI value
is null is never inserted into its destination table (it is dropped with a
warning); for a row with at least one non-null KPI value, a tuple is inserted
that lists every KPI column of the table, carrying the row's value where it
is non-null and SQL NULL where it is null (observably equivalent to omitting
the null columns, which the INSERT statement itself does not do). -/
theorem C4_amended_nulls (kpiNames : List String) (batch : List DetailRow)
    (hnodup : ∀ row ∈ batch, (row.kpi_values.map Prod.fst).Nodup) :
    (insert_kpi_details kpiNames batch).1 = ["kpi_id", "operator", "suffix"] ++ kpiNames ∧
    (insert_kpi_details kpiNames batch).2
      = (batch.filter (fun r => r.kpi_values.any (fun p => p.2.isSome))).map (fun row =>
          [Cell.int row.kpi_id, Cell.str row.operator, Cell.str row.suffix] ++
            kpiNames.map (fun k =>
              match lookupKey row.kpi_values k with
              | some (some q) => Cell.num q
              | _ => Cell.null)) := by
  refine ⟨rfl, ?_⟩
  induction batch with
  | nil => simp [insert_kpi_details]
  | cons row rest ih =>
      have hrow := hnodup row (List.mem_cons_self row rest)
      have hrest : ∀ r ∈ rest, (r.kpi_values.map Prod.fst).Nodup :=
        fun r hr => hnodup r (List.mem_cons_of_mem row hr)
      have ihr := ih hrest
      simp only [insert_kpi_details, List.filterMap_cons] at ihr ⊢
      by_cases hc : row.kpi_values.filter (fun p => p.2.isSome) = []
      · have hany : row.kpi_values.any (fun p => p.2.isSome) = false := by
          rw [List.any_eq_false]
          intro p hp
          have := List.filter_eq_nil_iff.mp hc p hp
          simpa using this
        simp only [hc, if_pos rfl, List.filter_cons, hany, Bool.false_eq_true, if_false]
        exact ihr
      · have hany : row.kpi_values.any (fun p => p.2.isSome) = true := by
          rw [List.any_eq_true]
          rcases List.exists_cons_of_ne_nil hc with ⟨p, ps, hps⟩
          have hp : p ∈ row.kpi_values.filter (fun q => q.2.isSome) := by
            rw [hps]; exact List.mem_cons_self p ps
          exact ⟨p, List.mem_of_mem_filter hp, (List.mem_filter.mp hp).2⟩
        have hmap : kpiNames.map (fun k =>
            match lookupKey (row.kpi_values.filter (fun p => p.2.isSome)) k with
            | some (some q) => Cell.num q
            | _ => Cell.null)
          = kpiNames.map (fun k =>
            match lookupKey row.kpi_values k with
            | some (some q) => Cell.num q
            | _ => Cell.null) :=
          List.map_congr_left (fun k _ => by
            rw [lookupKey_filter_isSome row.kpi_values k hrow]
            cases lookupKey row.kpi_values k with
            | none => rfl
            | some v => cases v <;> rfl)
        simp only [if_neg hc, List.filter_cons, hany, if_true]
        rw [hmap, ihr, List.map_cons]

/-- Closed witness for `C4_amended_nulls`, applied at a concrete two-KPI
batch. -/
theorem C4_witness :
    (insert_kpi_details ["k1", "k2"]
        [⟨1, "op", "sfx", [("k1", Option.none), ("k2", some (2 : ℚ))]⟩,
         ⟨2, "op2", "s2", [("k1", Option.none), ("k2", Option.none)]⟩]).2
      = [[Cell.int 1, Cell.str "op", Cell.str "sfx", Cell.null, Cell.num 2]] := by
  have h := (C4_amended_nulls ["k1", "k2"]
    [⟨1, "op", "sfx", [("k1", Option.none), ("k2", some (2 : ℚ))]⟩,
     ⟨2, "op2", "s2", [("k1", Option.none), ("k2", Option.none)]⟩]
    (by decide)).2
  rw [h]
  decide

/-! ## Batch extraction (`tools.extract_table_data`) and the retry wrapper
(`Extractor.extract_table_data`)

`tools.extract_table_data` (lines 319-360) fetches `LIMIT batch OFFSET offset`
ordered by the timestamp column (the source is modelled as that ordered row
list), returns `None` on an empty fetch or a missing/empty indicator mapping
(a `MySQLdb.Error` is likewise swallowed into `None`), and otherwise attaches
`indicator_map.get(id, "Unknown")` to each row.

`Extractor.extract_table_data` (lines 46-62) wraps a call in a retry loop:
`max_retries = 3`, `retry_delay = 4`, attempts `0..max_retries`, sleeping
`retry_delay * 2**attempt` after each failed attempt below the limit and
re-raising after the last. -/

/-- A raw source row `(date_heure, ID_indicateur, valeur)`. -/
structure SrcRow where
  date : PyVal
  id : Int
  val : PyVal
deriving DecidableEq, Repr

/-- Indicator map lookup (`indicator_map.get(id_indicateur, "Unknown")`). -/
def lookupId (m : List (Int × String)) (i : Int) : Option String :=
  match m with
  | [] => Option.none
  | (k, v) :: rest => if k = i then some v else lookupId rest i

/-- `tools.extract_table_data` on an in-order source snapshot. -/
def extract_table_data (src : List SrcRow) (imap : List (Int × String))
    (offset batchSize : Nat) : Option (List (List PyVal)) :=
  let raw := (src.drop offset).take batchSize
  if raw = [] then Option.none
  else if imap = [] then Option.none
  else some (raw.map (fun r =>
    [r.date, PyVal.str ((lookupId imap r.id).getD "Unknown"), r.val]))

/-- Result of one call to `Extractor.extract_table_data` as seen by the
orchestrator: a returned row list, a returned `None`, or an exception that
survived the retry loop. -/
inductive ExtractResult where
  | rows (rs : List (List PyVal))
  | nodata
  | exn
deriving DecidableEq, Repr

/-- Outcome of a single attempt inside the retry loop of
`Extractor.extract_table_data`: the wrapped call returns (possibly `None`) or
raises. -/
inductive AttemptResult where
  | ok (d : Option (List (List PyVal)))
  | raise

def ofOption : Option (List (List PyVal)) → ExtractResult
  | some rs => .rows rs
  | Option.none => .nodata

def max_retries : Nat := 3

def retry_delay : Nat := 4

/-- The retry loop of `Extractor.extract_table_data`: `a` is the current
attempt index, the second argument the number of attempts still allowed after
this one.  Returns the final result and the list of back-off sleeps
(`retry_delay * 2**attempt`) performed. -/
def retryAux (attempt : Nat → AttemptResult) : Nat → Nat → ExtractResult × List Nat
  | a, 0 =>
      (match attempt a with
       | .ok d => (ofOption d, [])
       | .raise => (.exn, []))
  | a, r + 1 =>
      (match attempt a with
       | .ok d => (ofOption d, [])
       | .raise =>
           ((retryAux attempt (a + 1) r).1,
            retry_delay * 2 ^ a :: (retryAux attempt (a + 1) r).2))

/-- `Extractor.extract_table_data`: attempts `0..max_retries`. -/
def extract_table_data_with_retries (attempt : Nat → AttemptResult) :
    ExtractResult × List Nat :=
  retryAux attempt 0 max_retries

/-! ## The checkpoint store and `Orchestrator.process_table_completely`

`orchestrator.py` lines 29-90.  The checkpoint file is a JSON object keyed by
table name; an entry is written after every successful batch (without a
`completed` key — `completed : Option Bool` models the key's presence), and
`last_extracted_info[table]["completed"] = True` after the loop exits
normally, which raises `KeyError` when no entry exists.  Python's
`round(percentage, 2)` on a float is modelled by the exact rational. -/

structure Entry where
  offset : Nat
  total_extracted : Nat
  total_rows : Nat
  percentage : ℚ
  completed : Option Bool
deriving DecidableEq, Repr

/-- Dict assignment `last_extracted_info[table] = entry`. -/
def setEntry (chk : List (String × Entry)) (t : String) (e : Entry) :
    List (String × Entry) :=
  match chk with
  | [] => [(t, e)]
  | (k, v) :: rest => if k = t then (k, e) :: rest else (k, v) :: setEntry rest t e

/-- `last_extracted_info[table].get("completed", False)`. -/
def completedIn (chk : List (String × Entry)) (t : String) : Bool :=
  match lookupKey chk t with
  | some e => e.completed.getD false
  | Option.none => false

/-- An observable side effect of the copy loop: one batch fetch (a call to
`Extractor.extract_table_data`) or one destination write. -/
inductive Event where
  | fetch (table : String) (offset : Nat)
  | write (table : String) (rows : List (List PyVal))
deriving DecidableEq

def Event.tbl : Event → String
  | .fetch t _ => t
  | .write t _ => t

/-- How `process_table_completely` terminates: normally, with the `KeyError`
of the completed-marking line, with a propagated fetch exception, or (model
only) out of fuel. -/
inductive Outcome where
  | ok
  | keyError
  | exn
  | fuelOut
deriving DecidableEq, Repr

structure LoopOut where
  checkpoint : List (String × Entry)
  events : List Event
  persists : List Entry
  outcome : Outcome
deriving DecidableEq

/-- The post-loop `last_extracted_info[table]["completed"] = True;
save_last_extracted(...)` step (`orchestrator.py` lines 70-71): `KeyError`
when the entry is absent. -/
def markCompleted (table : String) (chk : List (String × Entry))
    (evs : List Event) (tr : List Entry) : LoopOut :=
  match lookupKey chk table with
  | Option.none => ⟨chk, evs, tr, .keyError⟩
  | some e =>
      let e' := { e with completed := some true }
      ⟨setEntry chk table e', evs, tr ++ [e'], .ok⟩

/-- The checkpoint entry written after a successful batch of `n` rows
(`orchestrator.py` lines 55-61): offset and count advanced by the batch
length, the `COUNT(*)` snapshot, and the derived percentage (Python's
`round(percentage, 2)` of a float is modelled by the exact rational); the
fresh dict carries no `completed` key. -/
def mkEntry (offset tot n totalRows : Nat) : Entry :=
  ⟨offset + n, tot + n, totalRows,
   if 0 < totalRows then ((tot + n : ℚ) * 100) / totalRows else 0,
   Option.none⟩

/-- The `while True` loop of `process_table_completely`, with the checkpoint
file, the emitted events and the trace of persisted entries threaded
explicitly.  `fuel` bounds the number of iterations (the Python loop has no
such bound; all theorems below supply enough fuel). -/
def processLoop (table : String) (fetch : Nat → ExtractResult) (totalRows : Nat) :
    Nat → Nat → Nat → List (String × Entry) → List Event → List Entry → LoopOut
  | 0, _, _, chk, evs, tr => ⟨chk, evs, tr, .fuelOut⟩
  | fuel + 1, offset, tot, chk, evs, tr =>
      match fetch offset with
      | .exn => ⟨chk, evs ++ [.fetch table offset], tr, .exn⟩
      | .nodata => markCompleted table chk (evs ++ [.fetch table offset]) tr
      | .rows rows =>
          if rows = [] then markCompleted table chk (evs ++ [.fetch table offset]) tr
          else
            if totalRows ≤ tot + rows.length then
              markCompleted table
                (setEntry chk table (mkEntry offset tot rows.length totalRows))
                (evs ++ [.fetch table offset, .write table rows])
                (tr ++ [mkEntry offset tot rows.length totalRows])
            else
              processLoop table fetch totalRows fuel (offset + rows.length)
                (tot + rows.length)
                (setEntry chk table (mkEntry offset tot rows.length totalRows))
                (evs ++ [.fetch table offset, .write table rows])
                (tr ++ [mkEntry offset tot rows.length totalRows])

/-- The resume offset of `process_table_completely` (lines 31-38): the stored
entry's offset, or 0 when the table has no checkpoint entry. -/
def initOffset (chk : List (String × Entry)) (table : String) : Nat :=
  match lookupKey chk table with
  | some e => e.offset
  | Option.none => 0

/-- `Orchestrator.process_table_completely`: resume from the stored offset (0
when no entry), with `total_extracted` initialised to the offset, then run
the batch loop; `totalRows` is the `COUNT(*)` snapshot taken at start. -/
def processTableCompletely (table : String) (fetch : Nat → ExtractResult)
    (totalRows fuel : Nat) (chk : List (String × Entry)) : LoopOut :=
  processLoop table fetch totalRows fuel (initOffset chk table) (initOffset chk table)
    chk [] []

/-- The orchestrator's fetch, instantiated with a concrete source snapshot:
never raises, so the retry wrapper is the identity on its result. -/
def fetchOfSource (src : List SrcRow) (imap : List (Int × String)) (B : Nat) :
    Nat → ExtractResult :=
  fun offset => ofOption (extract_table_data src imap offset B)

/-- `process_table_completely` against a concrete source snapshot:
`total_rows` is the source's row count. -/
def processTableCompletelySrc (table : String) (src : List SrcRow)
    (imap : List (Int × String)) (B fuel : Nat) (chk : List (String × Entry)) :
    LoopOut :=
  processTableCompletely table (fetchOfSource src imap B) src.length fuel chk

/-- The per-table loop of `Orchestrator.process_orchestration` (lines 74-90):
the skip decision uses the checkpoint snapshot loaded once at start; a
non-`ok` outcome of `process_table_completely` propagates (the `except`
re-raises). -/
def orchGo (snapshot : List (String × Entry)) (fetchOf : String → Nat → ExtractResult)
    (rowsOf : String → Nat) (fuel : Nat) :
    List String → List (String × Entry) → List Event → LoopOut
  | [], chk, evs => ⟨chk, evs, [], .ok⟩
  | t :: ts, chk, evs =>
      if completedIn snapshot t then orchGo snapshot fetchOf rowsOf fuel ts chk evs
      else
        let r := processTableCompletely t (fetchOf t) (rowsOf t) fuel chk
        match r.outcome with
        | .ok => orchGo snapshot fetchOf rowsOf fuel ts r.checkpoint (evs ++ r.events)
        | .keyError => ⟨r.checkpoint, evs ++ r.events, [], .keyError⟩
        | .exn => ⟨r.checkpoint, evs ++ r.events, [], .exn⟩
        | .fuelOut => ⟨r.checkpoint, evs ++ r.events, [], .fuelOut⟩

/-- `Orchestrator.process_orchestration` over a given work list. -/
def processOrchestration (tables : List String)
    (fetchOf : String → Nat → ExtractResult) (rowsOf : String → Nat)
    (fuel : Nat) (chk : List (String × Entry)) : LoopOut :=
  orchGo chk fetchOf rowsOf fuel tables chk []

/-- Replay the destination-database effect of an event list. -/
def applyEvent (dest : Dest) : Event → Dest
  | .fetch _ _ => dest
  | .write t rows => load_batch_into_database rows dest t

def applyEvents (dest : Dest) (evs : List Event) : Dest :=
  evs.foldl applyEvent dest

/-- Replay a persist trace onto a checkpoint file. -/
def applyPersists (chk : List (String × Entry)) (t : String) (ps : List Entry) :
    List (String × Entry) :=
  ps.foldl (fun c e => setEntry c t e) chk

theorem lookupKey_setEntry_self (chk : List (String × Entry)) (t : String) (e : Entry) :
    lookupKey (setEntry chk t e) t = some e := by
  induction chk with
  | nil => simp [setEntry, lookupKey]
  | cons hd tl ih =>
      obtain ⟨k, v⟩ := hd
      by_cases h : k = t <;> simp [setEntry, lookupKey, h, ih]

theorem lookupKey_setEntry_ne (chk : List (String × Entry)) (t k : String) (e : Entry)
    (h : k ≠ t) : lookupKey (setEntry chk t e) k = lookupKey chk k := by
  have hts : ¬ t = k := fun hh => h (Eq.symm hh)
  induction chk with
  | nil => simp [setEntry, lookupKey, hts]
  | cons hd tl ih =>
      obtain ⟨k', v⟩ := hd
      by_cases h' : k' = t
      · subst h'
        simp [setEntry, lookupKey, hts]
      · simp only [setEntry, if_neg h', lookupKey]
        by_cases hk : k' = k
        · simp [hk]
        · simp [hk, ih]

theorem lookupKey_applyPersists (t : String) (ps : List Entry) :
    ∀ chk : List (String × Entry),
      lookupKey (applyPersists chk t ps) t
        = match ps.getLast? with
          | some e => some e
          | Option.none => lookupKey chk t := by
  induction ps with
  | nil => intro chk; rfl
  | cons e ps ih =>
      intro chk
      show lookupKey (applyPersists (setEntry chk t e) t ps) t = _
      rw [ih (setEntry chk t e)]
      cases hps : ps.getLast? with
      | none =>
          have hnil : ps = [] := by
            cases ps with
            | nil => rfl
            | cons a l => simp [List.getLast?_eq_none_iff] at hps
          subst hnil
          simp [lookupKey_setEntry_self]
      | some e' =>
          have : (e :: ps).getLast? = some e' := by
            cases ps with
            | nil => simp_all
            | cons a l => rw [List.getLast?_cons_cons]; exact hps
          rw [this]

theorem mem_of_getLast?_eq_some {α : Type} {l : List α} {a : α}
    (h : l.getLast? = some a) : a ∈ l := by
  induction l with
  | nil => simp at h
  | cons x xs ih =>
      cases xs with
      | nil => simp at h; simp [h]
      | cons y ys =>
          rw [List.getLast?_cons_cons] at h
          exact List.mem_cons_of_mem x (ih h)

/-- If the copy loop ends in a propagated exception, the checkpoint file it
leaves behind is the initial file with exactly the successful persists of
this run applied (nothing from the failed batch), and none of those persists
carries a `completed` key. -/
theorem processLoop_exn_frame (table : String) (fetch : Nat → ExtractResult) (R : Nat) :
    ∀ (fuel offset tot : Nat) (chk : List (String × Entry)) (evs : List Event)
      (tr : List Entry),
      (processLoop table fetch R fuel offset tot chk evs tr).outcome = .exn →
      ∃ ps : List Entry,
        (processLoop table fetch R fuel offset tot chk evs tr).persists = tr ++ ps ∧
        (∀ e ∈ ps, e.completed = Option.none) ∧
        (processLoop table fetch R fuel offset tot chk evs tr).checkpoint
          = applyPersists chk table ps := by
  intro fuel
  induction fuel with
  | zero =>
      intro offset tot chk evs tr h
      simp [processLoop] at h
  | succ fuel ih =>
      intro offset tot chk evs tr h
      cases hf : fetch offset with
      | exn =>
          refine ⟨[], ?_, by simp, ?_⟩ <;> simp [processLoop, hf, applyPersists]
      | nodata =>
          exfalso
          cases hl : lookupKey chk table <;>
            simp [processLoop, hf, markCompleted, hl] at h
      | rows rows =>
          by_cases hr : rows = []
          · exfalso
            cases hl : lookupKey chk table <;>
              simp [processLoop, hf, hr, markCompleted, hl] at h
          · by_cases hle : R ≤ tot + rows.length
            · exfalso
              simp only [processLoop, hf, if_neg hr, if_pos hle, markCompleted,
                lookupKey_setEntry_self] at h
              simp at h
            · have h' : (processLoop table fetch R fuel (offset + rows.length)
                  (tot + rows.length)
                  (setEntry chk table (mkEntry offset tot rows.length R))
                  (evs ++ [.fetch table offset, .write table rows])
                  (tr ++ [mkEntry offset tot rows.length R])).outcome = .exn := by
                simpa only [processLoop, hf, if_neg hr, if_neg hle] using h
              obtain ⟨ps, hpers, hcomp, hchk⟩ := ih _ _ _ _ _ h'
              refine ⟨mkEntry offset tot rows.length R :: ps, ?_, ?_, ?_⟩
              · simpa only [processLoop, hf, if_neg hr, if_neg hle,
                  List.append_assoc, List.singleton_append] using hpers
              · intro e he
                rcases List.mem_cons.mp he with he | he
                · subst he; rfl
                · exact hcomp e he
              · simpa only [processLoop, hf, if_neg hr, if_neg hle] using hchk

/-- **C1.** A batch fetch that raises on every attempt is retried exactly
`max_retries = 3` times, sleeping the exponentially doubling back-offs
`[4, 8, 16]` from the fixed base `retry_delay = 4`, and then fails; and when
`process_table_completely` ends in such a propagated exception, the table's
copy aborts with the checkpoint file equal to the initial file plus exactly
the successfully persisted batches of this run (i.e. unchanged at the last
successfully persisted offset) and the table not marked completed. -/
theorem C1_retry_and_abort (attempt : Nat → AttemptResult)
    (hall : ∀ a, attempt a = .raise)
    (table : String) (fetch : Nat → ExtractResult) (R fuel : Nat)
    (chk : List (String × Entry))
    (hc : completedIn chk table = false)
    (hexn : (processTableCompletely table fetch R fuel chk).outcome = .exn) :
    extract_table_data_with_retries attempt = (.exn, [4, 8, 16]) ∧
    (processTableCompletely table fetch R fuel chk).checkpoint
      = applyPersists chk table (processTableCompletely table fetch R fuel chk).persists ∧
    (∀ e ∈ (processTableCompletely table fetch R fuel chk).persists,
      e.completed = Option.none) ∧
    completedIn (processTableCompletely table fetch R fuel chk).checkpoint table
      = false := by
  have hretry : extract_table_data_with_retries attempt = (.exn, [4, 8, 16]) := by
    simp [extract_table_data_with_retries, max_retries, retryAux, hall, retry_delay]
  simp only [processTableCompletely] at hexn ⊢
  obtain ⟨ps, hpers, hcomp, hchk⟩ := processLoop_exn_frame table fetch R fuel _ _ chk [] []
    hexn
  rw [List.nil_append] at hpers
  refine ⟨hretry, ?_, ?_, ?_⟩
  · rw [hpers]; exact hchk
  · rw [hpers]; exact hcomp
  · rw [hchk]
    unfold completedIn
    rw [lookupKey_applyPersists]
    cases hps : ps.getLast? with
    | none => exact hc
    | some e =>
        have := hcomp e (mem_of_getLast?_eq_some hps)
        simp [this]

/-- Closed witness for `C1_retry_and_abort`: an always-raising attempt
function and a fetch whose first batch raises through the retry wrapper. -/
theorem C1_witness :
    extract_table_data_with_retries (fun _ => .raise) = (.exn, [4, 8, 16]) ∧
    (processTableCompletely "t" (fun _ => .exn) 10 3 []).checkpoint
      = applyPersists [] "t" (processTableCompletely "t" (fun _ => .exn) 10 3 []).persists ∧
    (∀ e ∈ (processTableCompletely "t" (fun _ => .exn) 10 3 []).persists,
      e.completed = Option.none) ∧
    completedIn (processTableCompletely "t" (fun _ => .exn) 10 3 []).checkpoint "t"
      = false :=
  C1_retry_and_abort (fun _ => .raise) (fun _ => rfl) "t" (fun _ => .exn) 10 3 []
    rfl rfl

theorem markCompleted_events (t : String) (chk : List (String × Entry))
    (evs : List Event) (tr : List Entry) :
    (markCompleted t chk evs tr).events = evs := by
  cases hl : lookupKey chk t <;> simp [markCompleted, hl]

theorem markCompleted_chk_frame (t T : String) (chk : List (String × Entry))
    (evs : List Event) (tr : List Entry) (hT : T ≠ t) :
    lookupKey (markCompleted t chk evs tr).checkpoint T = lookupKey chk T := by
  cases hl : lookupKey chk t <;>
    simp [markCompleted, hl, lookupKey_setEntry_ne _ _ _ _ hT]

/-- Every event emitted by the copy loop concerns the processed table. -/
theorem processLoop_events (t : String) (f : Nat → ExtractResult) (R : Nat) :
    ∀ (fuel offset tot : Nat) (chk : List (String × Entry)) (evs : List Event)
      (tr : List Entry),
      ∃ evs' : List Event,
        (processLoop t f R fuel offset tot chk evs tr).events = evs ++ evs' ∧
        ∀ ev ∈ evs', Event.tbl ev = t := by
  intro fuel
  induction fuel with
  | zero => intro offset tot chk evs tr; exact ⟨[], by simp [processLoop], by simp⟩
  | succ fuel ih =>
      intro offset tot chk evs tr
      cases hf : f offset with
      | exn =>
          refine ⟨[.fetch t offset], by simp [processLoop, hf], ?_⟩
          intro ev hev
          simp at hev
          simp [hev, Event.tbl]
      | nodata =>
          refine ⟨[.fetch t offset], ?_, ?_⟩
          · simp [processLoop, hf, markCompleted_events]
          · intro ev hev
            simp at hev
            simp [hev, Event.tbl]
      | rows rows =>
          by_cases hr : rows = []
          · refine ⟨[.fetch t offset], ?_, ?_⟩
            · simp [processLoop, hf, hr, markCompleted_events]
            · intro ev hev
              simp at hev
              simp [hev, Event.tbl]
          · by_cases hle : R ≤ tot + rows.length
            · refine ⟨[.fetch t offset, .write t rows], ?_, ?_⟩
              · simp [processLoop, hf, if_neg hr, if_pos hle, markCompleted_events]
              · intro ev hev
                rcases List.mem_cons.mp hev with h | h
                · simp [h, Event.tbl]
                · simp at h
                  simp [h, Event.tbl]
            · obtain ⟨evs', hevs', hall⟩ := ih (offset + rows.length) (tot + rows.length)
                (setEntry chk t (mkEntry offset tot rows.length R))
                (evs ++ [.fetch t offset, .write t rows])
                (tr ++ [mkEntry offset tot rows.length R])
              refine ⟨[.fetch t offset, .write t rows] ++ evs', ?_, ?_⟩
              · rw [show (processLoop t f R (fuel + 1) offset tot chk evs tr)
                    = processLoop t f R fuel (offset + rows.length) (tot + rows.length)
                        (setEntry chk t (mkEntry offset tot rows.length R))
                        (evs ++ [.fetch t offset, .write t rows])
                        (tr ++ [mkEntry offset tot rows.length R]) from by
                    simp [processLoop, hf, if_neg hr, if_neg hle]]
                rw [hevs', List.append_assoc]
              · intro ev hev
                rcases List.mem_append.mp hev with h | h
                · rcases List.mem_cons.mp h with h | h
                  · simp [h, Event.tbl]
                  · simp at h
                    simp [h, Event.tbl]
                · exact hall ev h

/-- The copy loop of one table leaves every other table's checkpoint entry
untouched. -/
theorem processLoop_chk_frame (t : String) (f : Nat → ExtractResult) (R : Nat) :
    ∀ (fuel offset tot : Nat) (chk : List (String × Entry)) (evs : List Event)
      (tr : List Entry) (T : String), T ≠ t →
      lookupKey (processLoop t f R fuel offset tot chk evs tr).checkpoint T
        = lookupKey chk T := by
  intro fuel
  induction fuel with
  | zero => intro offset tot chk evs tr T hT; simp [processLoop]
  | succ fuel ih =>
      intro offset tot chk evs tr T hT
      cases hf : f offset with
      | exn => simp [processLoop, hf]
      | nodata => simp [processLoop, hf, markCompleted_chk_frame _ _ _ _ _ hT]
      | rows rows =>
          by_cases hr : rows = []
          · simp [processLoop, hf, hr, markCompleted_chk_frame _ _ _ _ _ hT]
          · by_cases hle : R ≤ tot + rows.length
            · simp [processLoop, hf, if_neg hr, if_pos hle,
                markCompleted_chk_frame _ _ _ _ _ hT, lookupKey_setEntry_ne _ _ _ _ hT]
            · rw [show (processLoop t f R (fuel + 1) offset tot chk evs tr)
                  = processLoop t f R fuel (offset + rows.length) (tot + rows.length)
                      (setEntry chk t (mkEntry offset tot rows.length R))
                      (evs ++ [.fetch t offset, .write t rows])
                      (tr ++ [mkEntry offset tot rows.length R]) from by
                  simp [processLoop, hf, if_neg hr, if_neg hle]]
              rw [ih _ _ _ _ _ _ hT, lookupKey_setEntry_ne _ _ _ _ hT]

/-- Skipped tables are untouched by the orchestration loop: no event concerns
a table whose snapshot entry is completed, and its checkpoint entry is
preserved. -/
theorem orchGo_skip (snapshot : List (String × Entry))
    (fetchOf : String → Nat → ExtractResult) (rowsOf : String → Nat) (fuel : Nat)
    (T : String) (hsnap : completedIn snapshot T = true) :
    ∀ (tables : List String) (chk : List (String × Entry)) (evs : List Event),
      ∃ evs' : List Event,
        (orchGo snapshot fetchOf rowsOf fuel tables chk evs).events = evs ++ evs' ∧
        (∀ ev ∈ evs', Event.tbl ev ≠ T) ∧
        lookupKey (orchGo snapshot fetchOf rowsOf fuel tables chk evs).checkpoint T
          = lookupKey chk T := by
  intro tables
  induction tables with
  | nil => intro chk evs; exact ⟨[], by simp [orchGo], by simp, by simp [orchGo]⟩
  | cons t ts ih =>
      intro chk evs
      by_cases hskip : completedIn snapshot t
      · obtain ⟨evs', h1, h2, h3⟩ := ih chk evs
        exact ⟨evs', by simpa [orchGo, hskip] using h1, h2,
          by simpa [orchGo, hskip] using h3⟩
      · have htT : T ≠ t := fun h => hskip (h ▸ hsnap)
        obtain ⟨revs, hrevs, hrall⟩ :=
          processLoop_events t (fetchOf t) (rowsOf t) fuel
            (initOffset chk t) (initOffset chk t) chk [] []
        have hrframe := processLoop_chk_frame t (fetchOf t) (rowsOf t) fuel
          (initOffset chk t) (initOffset chk t) chk [] [] T htT
        rw [List.nil_append] at hrevs
        have hrT : ∀ ev ∈ (processTableCompletely t (fetchOf t) (rowsOf t) fuel chk).events,
            Event.tbl ev ≠ T := by
          intro ev hev
          rw [show (processTableCompletely t (fetchOf t) (rowsOf t) fuel chk).events
              = revs from by simpa [processTableCompletely] using hrevs] at hev
          rw [hrall ev hev]
          exact fun h => htT h.symm
        have hrF : lookupKey
            (processTableCompletely t (fetchOf t) (rowsOf t) fuel chk).checkpoint T
            = lookupKey chk T := by
          simpa [processTableCompletely] using hrframe
        cases ho : (processTableCompletely t (fetchOf t) (rowsOf t) fuel chk).outcome with
        | ok =>
            obtain ⟨evs', h1, h2, h3⟩ := ih
              (processTableCompletely t (fetchOf t) (rowsOf t) fuel chk).checkpoint
              (evs ++ (processTableCompletely t (fetchOf t) (rowsOf t) fuel chk).events)
            refine ⟨(processTableCompletely t (fetchOf t) (rowsOf t) fuel chk).events
              ++ evs', ?_, ?_, ?_⟩
            · rw [show (orchGo snapshot fetchOf rowsOf fuel (t :: ts) chk evs)
                  = orchGo snapshot fetchOf rowsOf fuel ts
                      (processTableCompletely t (fetchOf t) (rowsOf t) fuel chk).checkpoint
                      (evs ++ (processTableCompletely t (fetchOf t) (rowsOf t) fuel chk).events)
                  from by simp [orchGo, hskip, ho]]
              rw [h1, List.append_assoc]
            · intro ev hev
              rcases List.mem_append.mp hev with h | h
              · exact hrT ev h
              · exact h2 ev h
            · rw [show (orchGo snapshot fetchOf rowsOf fuel (t :: ts) chk evs)
                  = orchGo snapshot fetchOf rowsOf fuel ts
                      (processTableCompletely t (fetchOf t) (rowsOf t) fuel chk).checkpoint
                      (evs ++ (processTableCompletely t (fetchOf t) (rowsOf t) fuel chk).events)
                  from by simp [orchGo, hskip, ho]]
              rw [h3, hrF]
        | keyError =>
            refine ⟨(processTableCompletely t (fetchOf t) (rowsOf t) fuel chk).events,
              by simp [orchGo, hskip, ho], hrT, by simp [orchGo, hskip, ho, hrF]⟩
        | exn =>
            refine ⟨(processTableCompletely t (fetchOf t) (rowsOf t) fuel chk).events,
              by simp [orchGo, hskip, ho], hrT, by simp [orchGo, hskip, ho, hrF]⟩
        | fuelOut =>
            refine ⟨(processTableCompletely t (fetchOf t) (rowsOf t) fuel chk).events,
              by simp [orchGo, hskip, ho], hrT, by simp [orchGo, hskip, ho, hrF]⟩

theorem applyEvents_frame (T : String) :
    ∀ (evs : List Event) (dest : Dest),
      (∀ ev ∈ evs, Event.tbl ev ≠ T) →
      rowsAt (applyEvents dest evs) T = rowsAt dest T := by
  intro evs
  induction evs with
  | nil => intro dest _; rfl
  | cons ev rest ih =>
      intro dest hall
      have hev := hall ev (List.mem_cons_self ev rest)
      have hrest : ∀ e ∈ rest, Event.tbl e ≠ T :=
        fun e he => hall e (List.mem_cons_of_mem ev he)
      cases ev with
      | fetch t o => exact (ih (applyEvent dest (.fetch t o)) hrest).trans rfl
      | write t rows =>
          simp only [Event.tbl] at hev
          calc rowsAt (applyEvents (applyEvent dest (.write t rows)) rest) T
              = rowsAt (applyEvent dest (.write t rows)) T := ih _ hrest
            _ = rowsAt dest T := rowsAt_load_batch_ne rows dest t T hev

/-- **C3.** For every table whose checkpoint entry has `completed == true` at
the start of a run, `process_orchestration` performs zero batch fetches and
zero destination writes for that table (no fetch or write event concerns it),
leaving its checkpoint entry and its destination table unchanged. -/
theorem C3_completed_skip (tables : List String)
    (fetchOf : String → Nat → ExtractResult) (rowsOf : String → Nat) (fuel : Nat)
    (chk : List (String × Entry)) (T : String) (e : Entry)
    (he : lookupKey chk T = some e) (hc : e.completed = some true) :
    (∀ ev ∈ (processOrchestration tables fetchOf rowsOf fuel chk).events,
      Event.tbl ev ≠ T) ∧
    lookupKey (processOrchestration tables fetchOf rowsOf fuel chk).checkpoint T
      = some e ∧
    (∀ dest : Dest,
      rowsAt (applyEvents dest (processOrchestration tables fetchOf rowsOf fuel chk).events) T
        = rowsAt dest T) := by
  have hsnap : completedIn chk T = true := by simp [completedIn, he, hc]
  obtain ⟨evs', h1, h2, h3⟩ := orchGo_skip chk fetchOf rowsOf fuel T hsnap tables chk []
  rw [List.nil_append] at h1
  have hev : ∀ ev ∈ (processOrchestration tables fetchOf rowsOf fuel chk).events,
      Event.tbl ev ≠ T := by
    intro ev hmem
    apply h2
    rwa [show (processOrchestration tables fetchOf rowsOf fuel chk).events = evs' from h1]
      at hmem
  refine ⟨hev, ?_, ?_⟩
  · rw [show (processOrchestration tables fetchOf rowsOf fuel chk).checkpoint
      = (orchGo chk fetchOf rowsOf fuel tables chk []).checkpoint from rfl, h3, he]
  · intro dest
    exact applyEvents_frame T _ dest hev

/-- Closed witness for `C3_completed_skip`: a two-table run whose second table
is already completed. -/
theorem C3_witness :
    (∀ ev ∈ (processOrchestration ["a", "b"] (fun _ _ => .nodata) (fun _ => 0) 1
        [("b", ⟨5, 5, 5, 100, some true⟩)]).events, Event.tbl ev ≠ "b") ∧
    lookupKey (processOrchestration ["a", "b"] (fun _ _ => .nodata) (fun _ => 0) 1
        [("b", ⟨5, 5, 5, 100, some true⟩)]).checkpoint "b"
      = some ⟨5, 5, 5, 100, some true⟩ ∧
    (∀ dest : Dest,
      rowsAt (applyEvents dest (processOrchestration ["a", "b"] (fun _ _ => .nodata)
        (fun _ => 0) 1 [("b", ⟨5, 5, 5, 100, some true⟩)]).events) "b"
        = rowsAt dest "b") :=
  C3_completed_skip ["a", "b"] (fun _ _ => .nodata) (fun _ => 0) 1
    [("b", ⟨5, 5, 5, 100, some true⟩)] "b" ⟨5, 5, 5, 100, some true⟩ rfl rfl

/-- **C10.** For a table with no existing checkpoint entry whose very first
batch fetch returns no rows (`tools.extract_table_data` returns `None` for an
empty source, an empty indicator mapping — or a swallowed SQL error, not
modelled here), `process_table_completely` reaches the completed-marking step
with no entry ever created for the table and raises `KeyError` there; the
table is never marked completed, the checkpoint file is unchanged, and the
orchestration run aborts. -/
theorem C10_keyerror_first_empty (table : String) (src : List SrcRow)
    (imap : List (Int × String)) (B fuel : Nat) (chk : List (String × Entry))
    (hchk : lookupKey chk table = Option.none)
    (hfirst : extract_table_data src imap 0 B = Option.none)
    (hfuel : 0 < fuel) :
    (processTableCompletelySrc table src imap B fuel chk).outcome = .keyError ∧
    (processTableCompletelySrc table src imap B fuel chk).checkpoint = chk ∧
    (processTableCompletelySrc table src imap B fuel chk).persists = [] ∧
    lookupKey (processTableCompletelySrc table src imap B fuel chk).checkpoint table
      = Option.none ∧
    (processOrchestration [table] (fun _ => fetchOfSource src imap B)
        (fun _ => src.length) fuel chk).outcome = .keyError := by
  obtain ⟨f, rfl⟩ : ∃ f, fuel = f + 1 := ⟨fuel - 1, by omega⟩
  have hfetch : fetchOfSource src imap B 0 = .nodata := by
    simp [fetchOfSource, hfirst, ofOption]
  have hrun : processTableCompletelySrc table src imap B (f + 1) chk
      = ⟨chk, [.fetch table 0], [], .keyError⟩ := by
    simp [processTableCompletelySrc, processTableCompletely, initOffset, hchk, processLoop,
      hfetch, markCompleted]
  have hskip : completedIn chk table = false := by simp [completedIn, hchk]
  refine ⟨by rw [hrun], by rw [hrun], by rw [hrun], by rw [hrun]; exact hchk, ?_⟩
  have hrun' : processTableCompletely table (fetchOfSource src imap B) src.length
      (f + 1) chk = ⟨chk, [.fetch table 0], [], .keyError⟩ := by
    simpa [processTableCompletelySrc] using hrun
  simp [processOrchestration, orchGo, hskip, hrun']

/-- Closed witness for `C10_keyerror_first_empty`: an empty source table with
no checkpoint entry. -/
theorem C10_witness :
    (processTableCompletelySrc "t" [] [] 5 1 []).outcome = .keyError ∧
    (processTableCompletelySrc "t" [] [] 5 1 []).checkpoint = [] ∧
    (processTableCompletelySrc "t" [] [] 5 1 []).persists = [] ∧
    lookupKey (processTableCompletelySrc "t" [] [] 5 1 []).checkpoint "t" = Option.none ∧
    (processOrchestration ["t"] (fun _ => fetchOfSource [] [] 5) (fun _ => ([] : List SrcRow).length)
        1 []).outcome = .keyError :=
  C10_keyerror_first_empty "t" [] [] 5 1 [] rfl rfl (by decide)

/-- A fetch below the row count returns a nonempty batch of
`min B (|src| - offset)` rows. -/
theorem fetchOfSource_lt (src : List SrcRow) (imap : List (Int × String)) (B offset : Nat)
    (himap : imap ≠ []) (hB : 0 < B) (hoff : offset < src.length) :
    ∃ rows : List (List PyVal),
      fetchOfSource src imap B offset = .rows rows ∧
      rows.length = min B (src.length - offset) ∧ rows ≠ [] := by
  have hraw : ((src.drop offset).take B).length = min B (src.length - offset) := by
    simp [List.length_take, List.length_drop]
  have hpos : 0 < min B (src.length - offset) := lt_min_iff.mpr ⟨hB, by omega⟩
  have hne : (src.drop offset).take B ≠ [] := by
    intro h
    rw [h] at hraw
    simp at hraw
    omega
  refine ⟨((src.drop offset).take B).map (fun r =>
    [r.date, PyVal.str ((lookupId imap r.id).getD "Unknown"), r.val]), ?_, ?_, ?_⟩
  · show ofOption (extract_table_data src imap offset B) = _
    simp only [extract_table_data]
    rw [if_neg hne, if_neg himap]
    rfl
  · rw [List.length_map]
    exact hraw
  · intro h
    have hl := congrArg List.length h
    rw [List.length_map, hraw] at hl
    simp at hl
    omega

/-- The fully-successful-run invariant of the copy loop, called with
`tot = offset` as `process_table_completely` does.  Starting strictly below
the row count with enough fuel, the loop terminates normally; its persist
trace is a nonempty block of loop persists (each with
`offset == total_extracted`, the `COUNT(*)` snapshot, and no `completed`
key), whose offsets climb strictly from the start offset in steps of at most
`B` up to exactly the row count, followed by the single completed persist. -/
theorem processLoop_run_ok (table : String) (src : List SrcRow)
    (imap : List (Int × String)) (B : Nat) (himap : imap ≠ []) (hB : 0 < B) :
    ∀ (fuel offset : Nat) (chk : List (String × Entry)) (evs : List Event)
      (tr : List Entry),
      offset < src.length → src.length - offset ≤ fuel →
      ∃ (ps : List Entry) (fin : Entry),
        (processLoop table (fetchOfSource src imap B) src.length fuel offset offset
          chk evs tr).outcome = .ok ∧
        (processLoop table (fetchOfSource src imap B) src.length fuel offset offset
          chk evs tr).persists = tr ++ ps ++ [fin] ∧
        ps ≠ [] ∧
        (∀ e ∈ ps, e.completed = Option.none ∧ e.offset = e.total_extracted ∧
          e.total_rows = src.length) ∧
        fin.completed = some true ∧ fin.offset = src.length ∧
        fin.total_extracted = src.length ∧
        lookupKey (processLoop table (fetchOfSource src imap B) src.length fuel offset
          offset chk evs tr).checkpoint table = some fin ∧
        List.Chain' (fun a b => a < b ∧ b ≤ a + B) (offset :: ps.map Entry.offset) ∧
        (ps.map Entry.offset).getLast? = some src.length := by
  intro fuel
  induction fuel with
  | zero => intro offset chk evs tr hoff hfuel; omega
  | succ fuel ih =>
      intro offset chk evs tr hoff hfuel
      obtain ⟨rows, hf, hlen, hne⟩ := fetchOfSource_lt src imap B offset himap hB hoff
      have hn1 : 1 ≤ rows.length := by
        rw [hlen]; exact lt_min_iff.mpr ⟨hB, by omega⟩
      have hnB : rows.length ≤ B := by rw [hlen]; exact min_le_left _ _
      have hnR : offset + rows.length ≤ src.length := by
        have : rows.length ≤ src.length - offset := by
          rw [hlen]; exact min_le_right _ _
        omega
      by_cases hle : src.length ≤ offset + rows.length
      · have heq : offset + rows.length = src.length := by omega
        have hstep : processLoop table (fetchOfSource src imap B) src.length (fuel + 1)
            offset offset chk evs tr
            = markCompleted table
                (setEntry chk table (mkEntry offset offset rows.length src.length))
                (evs ++ [.fetch table offset, .write table rows])
                (tr ++ [mkEntry offset offset rows.length src.length]) := by
          simp [processLoop, hf, if_neg hne, if_pos hle]
        have hmark : markCompleted table
            (setEntry chk table (mkEntry offset offset rows.length src.length))
            (evs ++ [.fetch table offset, .write table rows])
            (tr ++ [mkEntry offset offset rows.length src.length])
            = ⟨setEntry (setEntry chk table (mkEntry offset offset rows.length src.length))
                 table { mkEntry offset offset rows.length src.length with
                   completed := some true },
               evs ++ [.fetch table offset, .write table rows],
               (tr ++ [mkEntry offset offset rows.length src.length])
                 ++ [{ mkEntry offset offset rows.length src.length with
                   completed := some true }],
               .ok⟩ := by
          simp [markCompleted, lookupKey_setEntry_self]
        refine ⟨[mkEntry offset offset rows.length src.length],
          { mkEntry offset offset rows.length src.length with completed := some true },
          ?_, ?_, by simp, ?_, rfl, ?_, ?_, ?_, ?_, ?_⟩
        · rw [hstep, hmark]
        · rw [hstep, hmark]
        · intro e he
          simp at he
          subst he
          exact ⟨rfl, rfl, rfl⟩
        · show offset + rows.length = src.length
          exact heq
        · show offset + rows.length = src.length
          exact heq
        · rw [hstep, hmark]
          exact lookupKey_setEntry_self _ _ _
        · rw [List.map_cons, List.map_nil, List.chain'_cons]
          refine ⟨⟨?_, ?_⟩, List.chain'_singleton _⟩
          · show offset < offset + rows.length
            omega
          · show offset + rows.length ≤ offset + B
            omega
        · show [offset + rows.length].getLast? = some src.length
          rw [heq]
          rfl
      · have hoff' : offset + rows.length < src.length := by omega
        have hfuel' : src.length - (offset + rows.length) ≤ fuel := by omega
        have hstep : processLoop table (fetchOfSource src imap B) src.length (fuel + 1)
            offset offset chk evs tr
            = processLoop table (fetchOfSource src imap B) src.length fuel
                (offset + rows.length) (offset + rows.length)
                (setEntry chk table (mkEntry offset offset rows.length src.length))
                (evs ++ [.fetch table offset, .write table rows])
                (tr ++ [mkEntry offset offset rows.length src.length]) := by
          simp [processLoop, hf, if_neg hne, if_neg hle]
        obtain ⟨ps, fin, h1, h2, h3, h4, h5, h6, h7, h8, h9, h10⟩ :=
          ih (offset + rows.length)
            (setEntry chk table (mkEntry offset offset rows.length src.length))
            (evs ++ [.fetch table offset, .write table rows])
            (tr ++ [mkEntry offset offset rows.length src.length]) hoff' hfuel'
        refine ⟨mkEntry offset offset rows.length src.length :: ps, fin,
          ?_, ?_, by simp, ?_, h5, h6, h7, ?_, ?_, ?_⟩
        · rw [hstep]; exact h1
        · rw [hstep, h2]
          simp [List.append_assoc]
        · intro e he
          rcases List.mem_cons.mp he with he | he
          · subst he; exact ⟨rfl, rfl, rfl⟩
          · exact h4 e he
        · rw [hstep]; exact h8
        · rw [List.map_cons]
          rw [List.chain'_cons]
          constructor
          · constructor
            · show offset < offset + rows.length
              omega
            · show offset + rows.length ≤ offset + B
              omega
          · exact h9
        · rw [List.map_cons]
          rcases ps with _ | ⟨p, ps'⟩
          · exact absurd rfl h3
          · rw [List.map_cons] at h10 ⊢
            rw [List.getLast?_cons_cons]
            exact h10

/-- **C2.** A full successful run of `process_table_completely` on a table
with start-of-run row count `R = |src|` and batch size `B`: the persisted
checkpoint offsets climb strictly monotonically from the initial offset to
exactly `R` in increments of at most `B`; every loop persist satisfies
`offset == total_extracted` (and records the `COUNT(*)` snapshot) with no
`completed` key; and `completed` is set to true exactly once — the single
final persist, written after the step in which `total_extracted` first
reaches `R`. -/
theorem C2_full_run (table : String) (src : List SrcRow) (imap : List (Int × String))
    (B fuel : Nat) (chk : List (String × Entry))
    (himap : imap ≠ []) (hB : 0 < B)
    (hoff : initOffset chk table < src.length)
    (hfuel : src.length - initOffset chk table ≤ fuel) :
    ∃ (ps : List Entry) (fin : Entry),
      (processTableCompletelySrc table src imap B fuel chk).outcome = .ok ∧
      (processTableCompletelySrc table src imap B fuel chk).persists = ps ++ [fin] ∧
      ps ≠ [] ∧
      (∀ e ∈ ps, e.completed = Option.none ∧ e.offset = e.total_extracted ∧
        e.total_rows = src.length) ∧
      fin.completed = some true ∧ fin.offset = src.length ∧
      fin.total_extracted = src.length ∧
      lookupKey (processTableCompletelySrc table src imap B fuel chk).checkpoint table
        = some fin ∧
      List.Chain' (fun a b => a < b ∧ b ≤ a + B)
        (initOffset chk table :: ps.map Entry.offset) ∧
      (ps.map Entry.offset).getLast? = some src.length := by
  obtain ⟨ps, fin, h1, h2, h3, h4, h5, h6, h7, h8, h9, h10⟩ :=
    processLoop_run_ok table src imap B himap hB fuel (initOffset chk table) chk [] []
      hoff hfuel
  refine ⟨ps, fin, h1, ?_, h3, h4, h5, h6, h7, h8, h9, h10⟩
  rw [show (processTableCompletelySrc table src imap B fuel chk).persists
      = (processLoop table (fetchOfSource src imap B) src.length fuel
          (initOffset chk table) (initOffset chk table) chk [] []).persists from rfl, h2]
  rw [List.nil_append]

/-- Closed witness for `C2_full_run`: a three-row source copied with batch
size 2 from a fresh checkpoint. -/
theorem C2_witness :
    ∃ (ps : List Entry) (fin : Entry),
      (processTableCompletelySrc "t"
        [⟨.date 1, 1, .float 1⟩, ⟨.date 2, 1, .float 2⟩, ⟨.date 3, 2, .float 3⟩]
        [(1, "a")] 2 5 []).outcome = .ok ∧
      (processTableCompletelySrc "t"
        [⟨.date 1, 1, .float 1⟩, ⟨.date 2, 1, .float 2⟩, ⟨.date 3, 2, .float 3⟩]
        [(1, "a")] 2 5 []).persists = ps ++ [fin] ∧
      ps ≠ [] ∧
      (∀ e ∈ ps, e.completed = Option.none ∧ e.offset = e.total_extracted ∧
        e.total_rows = 3) ∧
      fin.completed = some true ∧ fin.offset = 3 ∧ fin.total_extracted = 3 ∧
      lookupKey (processTableCompletelySrc "t"
        [⟨.date 1, 1, .float 1⟩, ⟨.date 2, 1, .float 2⟩, ⟨.date 3, 2, .float 3⟩]
        [(1, "a")] 2 5 []).checkpoint "t" = some fin ∧
      List.Chain' (fun a b => a < b ∧ b ≤ a + 2)
        (initOffset [] "t" :: ps.map Entry.offset) ∧
      (ps.map Entry.offset).getLast? = some 3 :=
  C2_full_run "t"
    [⟨.date 1, 1, .float 1⟩, ⟨.date 2, 1, .float 2⟩, ⟨.date 3, 2, .float 3⟩]
    [(1, "a")] 2 5 [] (by decide) (by decide) (by decide) (by decide)

/-! ## Table-name selection (`tools.process_tables_names`)

`tools.py` lines 155-253.  The regexes of `config.py`
(`^(CALIS|MEIND|RAIND)[-_]APG43[_-]5_S\d+_A\d{4}$` and the `15`/MGW variants,
all `re.IGNORECASE`) are embedded as structural parsers over the lower-cased
character list; `filter_by_start_date`'s `re.search(r'_S(\d+)_A(\d{4})$', …)`
and `sort_by_year_and_week`'s key regexes (`_A(\d{4})$` and the first
`_S(\d+)_` occurrence) likewise.  `datetime.strptime(f"{year}-W{week}-1",
"%Y-W%W-%w")` is embedded following CPython's `_strptime` calculation: the
`%W` directive only matches week numbers 0–53 (larger weeks raise
`ValueError`), `%w`-day 1 with Monday-based weeks resolves to day-of-year
`(7 - weekday(Jan 1)) % 7 + 7*(week-1) + 1` (for week 0, `1 - weekday(Jan 1)`,
possibly in the previous year), and dates compare by proleptic-Gregorian
ordinal. -/

def natOfDigits (ds : List Char) : Nat :=
  ds.foldl (fun n c => n * 10 + (c.toNat - '0'.toNat)) 0

/-- `re.match` consumption of a fixed literal. -/
def dropExact : List Char → List Char → Option (List Char)
  | [], cs => some cs
  | _ :: _, [] => Option.none
  | p :: ps, c :: cs => if c = p then dropExact ps cs else Option.none

/-- The `\d+_A\d{4}$` tail shared by every category pattern: week digits,
then `_A` and exactly four year digits ending the name. -/
def parseWeekYearEnd (cs : List Char) : Option (Nat × Nat) :=
  match cs.dropWhile Char.isDigit with
  | u :: a :: ys =>
      if cs.takeWhile Char.isDigit ≠ [] ∧ u = '_' ∧ a = 'a' ∧ ys.length = 4 ∧
          ys.all Char.isDigit then
        some (natOfDigits (cs.takeWhile Char.isDigit), natOfDigits ys)
      else Option.none
  | _ => Option.none

/-- `[-_]APG43[_-]<cadence>` followed by the week/year tail; `cad` is
`"5_s"` or `"15_s"`. -/
def parseApgTail (cad : List Char) (cs : List Char) : Option (Nat × Nat) :=
  match cs with
  | s1 :: cs2 =>
      if s1 = '-' ∨ s1 = '_' then
        match dropExact ("apg43".toList) cs2 with
        | some (s2 :: cs4) =>
            if s2 = '_' ∨ s2 = '-' then
              match dropExact cad cs4 with
              | some tail => parseWeekYearEnd tail
              | Option.none => Option.none
            else Option.none
        | _ => Option.none
      else Option.none
  | [] => Option.none

/-- `patterns['5min']`: `^(CALIS|MEIND|RAIND)[-_]APG43[_-]5_S\d+_A\d{4}$`,
case-insensitively, returning the week/year on a match. -/
def parse5min (s : String) : Option (Nat × Nat) :=
  match dropExact ("calis".toList) (low s) with
  | some rest => parseApgTail ("5_s".toList) rest
  | Option.none =>
    match dropExact ("meind".toList) (low s) with
    | some rest => parseApgTail ("5_s".toList) rest
    | Option.none =>
      match dropExact ("raind".toList) (low s) with
      | some rest => parseApgTail ("5_s".toList) rest
      | Option.none => Option.none

/-- `patterns['15min']`: same with cadence `15`. -/
def parse15min (s : String) : Option (Nat × Nat) :=
  match dropExact ("calis".toList) (low s) with
  | some rest => parseApgTail ("15_s".toList) rest
  | Option.none =>
    match dropExact ("meind".toList) (low s) with
    | some rest => parseApgTail ("15_s".toList) rest
    | Option.none =>
      match dropExact ("raind".toList) (low s) with
      | some rest => parseApgTail ("15_s".toList) rest
      | Option.none => Option.none

/-- `patterns['mgw']`: `^([A-Za-z0-9]+)MGW_S\d+_A\d{4}$`, parsed from the
end (the end-anchored suffix determines the group split). -/
def parseMgw (s : String) : Option (Nat × Nat) :=
  match (low s).reverse with
  | y1 :: y2 :: y3 :: y4 :: a :: u :: rest =>
      if a = 'a' ∧ u = '_' ∧ y1.isDigit ∧ y2.isDigit ∧ y3.isDigit ∧ y4.isDigit then
        match rest.dropWhile Char.isDigit with
        | s' :: u' :: w' :: g' :: m' :: grev =>
            if rest.takeWhile Char.isDigit ≠ [] ∧ s' = 's' ∧ u' = '_' ∧ w' = 'w' ∧
                g' = 'g' ∧ m' = 'm' ∧ grev ≠ [] ∧ grev.all Char.isAlphanum then
              some (natOfDigits (rest.takeWhile Char.isDigit).reverse,
                    natOfDigits [y4, y3, y2, y1])
            else Option.none
        | _ => Option.none
      else Option.none
  | _ => Option.none

def matches5min (s : String) : Bool := (parse5min s).isSome

def matches15min (s : String) : Bool := (parse15min s).isSome

def matchesMgw (s : String) : Bool := (parseMgw s).isSome

/-- `filter_by_start_date`'s `re.search(r'_S(\d+)_A(\d{4})$', table,
re.IGNORECASE)`, parsed from the end. -/
def parseSWeekAYear (s : String) : Option (Nat × Nat) :=
  match (low s).reverse with
  | y1 :: y2 :: y3 :: y4 :: a :: u :: rest =>
      if a = 'a' ∧ u = '_' ∧ y1.isDigit ∧ y2.isDigit ∧ y3.isDigit ∧ y4.isDigit then
        match rest.dropWhile Char.isDigit with
        | s' :: u' :: _ =>
            if rest.takeWhile Char.isDigit ≠ [] ∧ s' = 's' ∧ u' = '_' then
              some (natOfDigits (rest.takeWhile Char.isDigit).reverse,
                    natOfDigits [y4, y3, y2, y1])
            else Option.none
        | _ => Option.none
      else Option.none
  | _ => Option.none

/-- `sort_by_year_and_week`'s year key: `re.search(r'_A(\d{4})$', …)`. -/
def findYearKey (s : String) : Option Nat :=
  match (low s).reverse with
  | y1 :: y2 :: y3 :: y4 :: a :: u :: _ =>
      if a = 'a' ∧ u = '_' ∧ y1.isDigit ∧ y2.isDigit ∧ y3.isDigit ∧ y4.isDigit then
        some (natOfDigits [y4, y3, y2, y1])
      else Option.none
  | _ => Option.none

/-- `sort_by_year_and_week`'s week key: the first `_S(\d+)_` occurrence
(`re.search(r'_S(\d+)_', …)`), scanned left to right. -/
def scanWeekKey : List Char → Option Nat
  | [] => Option.none
  | c0 :: rest =>
      if c0 = '_' then
        match rest with
        | c :: rest2 =>
            if c = 's' then
              match rest2.dropWhile Char.isDigit with
              | '_' :: _ =>
                  if rest2.takeWhile Char.isDigit ≠ [] then
                    some (natOfDigits (rest2.takeWhile Char.isDigit))
                  else scanWeekKey rest
              | _ => scanWeekKey rest
            else scanWeekKey rest
        | [] => Option.none
      else scanWeekKey rest

def findWeekKey (s : String) : Option Nat := scanWeekKey (low s)

def isLeap (y : Nat) : Bool := (y % 4 == 0 && y % 100 != 0) || y % 400 == 0

/-- Days of the proleptic Gregorian calendar strictly before January 1 of
year `y` (so `jan1Ordinal 1 = 1`, matching `datetime.date.toordinal`). -/
def daysBeforeYear (y : Nat) : Nat :=
  (y - 1) * 365 + (y - 1) / 4 - (y - 1) / 100 + (y - 1) / 400

def jan1Ordinal (y : Nat) : Nat := daysBeforeYear y + 1

/-- `datetime.date(y, 1, 1).weekday()`: Monday = 0. -/
def jan1Weekday (y : Nat) : Nat := (jan1Ordinal y + 6) % 7

/-- `datetime.strptime(f"{year}-W{week}-1", "%Y-W%W-%w")` as a proleptic
Gregorian ordinal: the Monday of Monday-based week `week` of `year`.  `None`
models the `ValueError` cases: a year below 1000 (Python's `int()` strips the
suffix's leading zeros, and the `%Y` directive then fails to match fewer than
four digits) and week numbers above 53 (rejected by the `%W` directive's
regex). -/
def strptimeWMonday (year week : Nat) : Option Int :=
  if year < 1000 then Option.none
  else if 53 < week then Option.none
  else
    let fw := jan1Weekday year
    let julian : Int :=
      if week = 0 then 1 - (fw : Int)
      else ((7 - fw) % 7 + 7 * (week - 1) + 1 : Nat)
    some ((jan1Ordinal year : Int) - 1 + julian)

/-- The keep-predicate of `filter_by_start_date`: the name's `_S{week}_A{year}`
suffix parses, `strptime` resolves it, and the resolved Monday is on/after
the cutoff; parse or resolution failure drops the table (with a warning). -/
def dateOK (start : Int) (t : String) : Bool :=
  match parseSWeekAYear t with
  | some (w, y) =>
      match strptimeWMonday y w with
      | some d => decide (start ≤ d)
      | Option.none => false
  | Option.none => false

def filter_tables (matcher : String → Bool) (tables : List String) : List String :=
  tables.filter matcher

def filter_by_start_date (tables : List String) (start : Int) : List String :=
  tables.filter (dateOK start)

/-- `START_DATE = datetime(2024, 1, 1)` from the extractor's `config.py`. -/
def START_DATE : Int := jan1Ordinal 2024

def sortKey (t : String) : Option (Nat × Nat) :=
  match findYearKey t, findWeekKey t with
  | some y, some w => some (y, w)
  | _, _ => Option.none

/-- Python's ascending comparison on `(year, week)` key tuples. -/
def pairLe (p q : Nat × Nat) : Bool :=
  decide (p.1 < q.1) || (decide (p.1 = q.1) && decide (p.2 ≤ q.2))

def keyLe (a b : String) : Bool := pairLe ((sortKey a).getD (0, 0)) ((sortKey b).getD (0, 0))

/-- `sort_by_year_and_week`: `sorted(tables, key=λt. (year, week))`; a table
on which either key regex fails makes the whole call raise
(`AttributeError` caught and re-raised), modelled by `none`. -/
def sort_by_year_and_week (tables : List String) : Option (List String) :=
  if tables.all (fun t => (sortKey t).isSome) then some (tables.mergeSort keyLe)
  else Option.none

structure TablesNamesOut where
  sorted5min : List String
  sorted15min : List String
  sortedMgw : List String
  result : List String
deriving DecidableEq

/-- `tools.process_tables_names`: filter each category by pattern, then by
start date, sort each, store the three manifests, and return the unified
list — which line 250 takes to be the 5-minute list alone, re-sorted. -/
def process_tables_names (tableNames : List String) (start : Int) :
    Option TablesNamesOut :=
  match sort_by_year_and_week (filter_by_start_date (filter_tables matches5min tableNames) start),
        sort_by_year_and_week (filter_by_start_date (filter_tables matches15min tableNames) start),
        sort_by_year_and_week (filter_by_start_date (filter_tables matchesMgw tableNames) start) with
  | some s5, some s15, some smgw =>
      match sort_by_year_and_week s5 with
      | some uni => some ⟨s5, s15, smgw, uni⟩
      | Option.none => Option.none
  | _, _, _ => Option.none

theorem takeWhile_all_append {p : Char → Bool} (l1 l2 : List Char)
    (h : ∀ c ∈ l1, p c = true) :
    (l1 ++ l2).takeWhile p = l1 ++ l2.takeWhile p := by
  induction l1 with
  | nil => simp
  | cons c l ih =>
      simp only [List.cons_append, List.takeWhile_cons, h c (List.mem_cons_self c l),
        if_true]
      rw [ih (fun c hc => h c (List.mem_cons_of_mem _ hc))]

theorem dropWhile_all_append {p : Char → Bool} (l1 l2 : List Char)
    (h : ∀ c ∈ l1, p c = true) :
    (l1 ++ l2).dropWhile p = l2.dropWhile p := by
  induction l1 with
  | nil => simp
  | cons c l ih =>
      simp only [List.cons_append, List.dropWhile_cons, h c (List.mem_cons_self c l),
        if_true]
      exact ih (fun c hc => h c (List.mem_cons_of_mem _ hc))

theorem takeWhile_digits_stop (ds : List Char) (c : Char) (l : List Char)
    (hdig : ∀ d ∈ ds, d.isDigit = true) (hc : c.isDigit = false) :
    (ds ++ c :: l).takeWhile Char.isDigit = ds := by
  rw [takeWhile_all_append ds (c :: l) hdig, List.takeWhile_cons, hc]
  simp

theorem dropWhile_digits_stop (ds : List Char) (c : Char) (l : List Char)
    (hdig : ∀ d ∈ ds, d.isDigit = true) (hc : c.isDigit = false) :
    (ds ++ c :: l).dropWhile Char.isDigit = c :: l := by
  rw [dropWhile_all_append ds (c :: l) hdig, List.dropWhile_cons, hc]
  simp

theorem dropExact_some : ∀ (p cs r : List Char), dropExact p cs = some r → cs = p ++ r := by
  intro p
  induction p with
  | nil =>
      intro cs r h
      simp only [dropExact, Option.some.injEq] at h
      simp [h]
  | cons a ps ih =>
      intro cs r h
      cases cs with
      | nil => simp [dropExact] at h
      | cons c cs' =>
          by_cases hc : c = a
          · subst hc
            simp only [dropExact, if_pos rfl] at h
            rw [List.cons_append]
            rw [ih cs' r h]
          · simp [dropExact, hc] at h

/-- The parsed week/year tail decomposes the character list. -/
theorem parseWeekYearEnd_some (cs : List Char) (w y : Nat)
    (h : parseWeekYearEnd cs = some (w, y)) :
    ∃ ds ys : List Char,
      cs = ds ++ '_' :: 'a' :: ys ∧ ds ≠ [] ∧ (∀ c ∈ ds, c.isDigit = true) ∧
      ys.length = 4 ∧ (∀ c ∈ ys, c.isDigit = true) ∧
      w = natOfDigits ds ∧ y = natOfDigits ys := by
  unfold parseWeekYearEnd at h
  cases hd : cs.dropWhile Char.isDigit with
  | nil => rw [hd] at h; simp at h
  | cons u rest1 =>
      cases rest1 with
      | nil => rw [hd] at h; simp at h
      | cons a ys =>
          rw [hd] at h
          dsimp only at h
          by_cases hg : cs.takeWhile Char.isDigit ≠ [] ∧ u = '_' ∧ a = 'a' ∧
              ys.length = 4 ∧ ys.all Char.isDigit
          · rw [if_pos hg] at h
            obtain ⟨hne, hu, ha, hy4, hyd⟩ := hg
            subst hu; subst ha
            simp only [Option.some.injEq, Prod.mk.injEq] at h
            refine ⟨cs.takeWhile Char.isDigit, ys, ?_, hne, ?_, hy4, ?_, h.1.symm, h.2.symm⟩
            · conv_lhs => rw [← List.takeWhile_append_dropWhile Char.isDigit cs]
              rw [hd]
            · exact fun c hc => List.mem_takeWhile_imp hc
            · exact List.all_eq_true.mp hyd
          · rw [if_neg hg] at h
            simp at h

theorem parseApgTail_some (cad cs : List Char) (w y : Nat)
    (h : parseApgTail cad cs = some (w, y)) :
    ∃ (sep1 sep2 : Char) (tail : List Char),
      (sep1 = '-' ∨ sep1 = '_') ∧ (sep2 = '_' ∨ sep2 = '-') ∧
      cs = sep1 :: ("apg43".toList ++ sep2 :: (cad ++ tail)) ∧
      parseWeekYearEnd tail = some (w, y) := by
  cases cs with
  | nil => simp [parseApgTail] at h
  | cons s1 cs2 =>
      unfold parseApgTail at h
      dsimp only at h
      by_cases hs1 : s1 = '-' ∨ s1 = '_'
      · rw [if_pos hs1] at h
        cases hde : dropExact ("apg43".toList) cs2 with
        | none => rw [hde] at h; simp at h
        | some r =>
            rw [hde] at h
            cases r with
            | nil => simp at h
            | cons s2 cs4 =>
                dsimp only at h
                by_cases hs2 : s2 = '_' ∨ s2 = '-'
                · rw [if_pos hs2] at h
                  cases hde2 : dropExact cad cs4 with
                  | none => rw [hde2] at h; simp at h
                  | some tail =>
                      rw [hde2] at h
                      dsimp only at h
                      refine ⟨s1, s2, tail, hs1, hs2, ?_, h⟩
                      rw [dropExact_some _ _ _ hde, dropExact_some _ _ _ hde2]
                · rw [if_neg hs2] at h; simp at h
      · rw [if_neg hs1] at h; simp at h

/-- Any table name whose lower-cased form ends in `_s<digits>_a<4 digits>`
is matched by `filter_by_start_date`'s suffix regex. -/
theorem parseSWeekAYear_of_shape (s : String) (pre ds : List Char) (c1 c2 c3 c4 : Char)
    (hlow : low s = pre ++ '_' :: 's' :: (ds ++ '_' :: 'a' :: [c1, c2, c3, c4]))
    (hds : ds ≠ []) (hdig : ∀ c ∈ ds, c.isDigit = true)
    (h1 : c1.isDigit = true) (h2 : c2.isDigit = true)
    (h3 : c3.isDigit = true) (h4 : c4.isDigit = true) :
    parseSWeekAYear s = some (natOfDigits ds, natOfDigits [c1, c2, c3, c4]) := by
  have hrevdig : ∀ c ∈ ds.reverse, c.isDigit = true := fun c hc =>
    hdig c (List.mem_reverse.mp hc)
  have hrev : (low s).reverse
      = c4 :: c3 :: c2 :: c1 :: 'a' :: '_' :: (ds.reverse ++ 's' :: '_' :: pre.reverse) := by
    rw [hlow]
    simp
  have ht : (ds.reverse ++ 's' :: '_' :: pre.reverse).takeWhile Char.isDigit = ds.reverse :=
    takeWhile_digits_stop _ _ _ hrevdig (by decide)
  have hdw : (ds.reverse ++ 's' :: '_' :: pre.reverse).dropWhile Char.isDigit
      = 's' :: '_' :: pre.reverse :=
    dropWhile_digits_stop _ _ _ hrevdig (by decide)
  have hdsrev : ds.reverse ≠ [] := by simpa using hds
  unfold parseSWeekAYear
  rw [hrev]
  dsimp only
  rw [if_pos ⟨rfl, rfl, h4, h3, h2, h1⟩, hdw]
  dsimp only
  rw [if_pos ⟨by rw [ht]; exact hdsrev, rfl, rfl⟩, ht, List.reverse_reverse]

theorem findYearKey_of_shape (s : String) (pre : List Char) (c1 c2 c3 c4 : Char)
    (hlow : low s = pre ++ '_' :: 'a' :: [c1, c2, c3, c4])
    (h1 : c1.isDigit = true) (h2 : c2.isDigit = true)
    (h3 : c3.isDigit = true) (h4 : c4.isDigit = true) :
    findYearKey s = some (natOfDigits [c1, c2, c3, c4]) := by
  have hrev : (low s).reverse = c4 :: c3 :: c2 :: c1 :: 'a' :: '_' :: pre.reverse := by
    rw [hlow]
    simp
  unfold findYearKey
  rw [hrev]
  dsimp only
  rw [if_pos ⟨rfl, rfl, h4, h3, h2, h1⟩]

theorem scanWeekKey_skip (c : Char) (l : List Char) (h : c ≠ '_') :
    scanWeekKey (c :: l) = scanWeekKey l := by
  conv_lhs => rw [scanWeekKey.eq_def]
  dsimp only
  rw [if_neg h]

theorem scanWeekKey_us_skip (c : Char) (l : List Char) (h : c ≠ 's') :
    scanWeekKey ('_' :: c :: l) = scanWeekKey (c :: l) := by
  conv_lhs => rw [scanWeekKey.eq_def]
  dsimp only
  rw [if_pos rfl]
  rw [if_neg h]

theorem scanWeekKey_hit (ds l' : List Char) (hds : ds ≠ [])
    (hdig : ∀ c ∈ ds, c.isDigit = true) :
    scanWeekKey ('_' :: 's' :: (ds ++ '_' :: l')) = some (natOfDigits ds) := by
  have ht := takeWhile_digits_stop ds '_' l' hdig (by decide)
  have hdw := dropWhile_digits_stop ds '_' l' hdig (by decide)
  conv_lhs => rw [scanWeekKey.eq_def]
  dsimp only
  rw [if_pos rfl]
  rw [if_pos rfl]
  rw [hdw]
  rw [if_pos (by rw [ht]; exact hds), ht]
  rfl

theorem scanWeekKey_append_no_us (l rest : List Char) (h : ∀ c ∈ l, c ≠ '_') :
    scanWeekKey (l ++ rest) = scanWeekKey rest := by
  induction l with
  | nil => simp
  | cons c l ih =>
      rw [List.cons_append, scanWeekKey_skip c _ (h c (List.mem_cons_self c l))]
      exact ih (fun c hc => h c (List.mem_cons_of_mem _ hc))

/-- On a name matching a CALIS/MEIND/RAIND pattern, the sort's week-key scan
finds exactly the suffix week. -/
theorem findWeek_of_apg (s : String) (node : List Char) (sep1 sep2 : Char)
    (cadDigits ds ys : List Char)
    (hnode : node = "calis".toList ∨ node = "meind".toList ∨ node = "raind".toList)
    (hsep1 : sep1 = '-' ∨ sep1 = '_') (hsep2 : sep2 = '_' ∨ sep2 = '-')
    (hcad : cadDigits = ['5'] ∨ cadDigits = ['1', '5'])
    (hds : ds ≠ []) (hdig : ∀ c ∈ ds, c.isDigit = true)
    (hlow : low s = node ++ sep1 ::
      ("apg43".toList ++ sep2 :: (cadDigits ++ '_' :: 's' :: (ds ++ '_' :: 'a' :: ys)))) :
    findWeekKey s = some (natOfDigits ds) := by
  unfold findWeekKey
  rw [hlow]
  rcases hnode with rfl | rfl | rfl <;>
    rcases hsep1 with rfl | rfl <;>
      rcases hsep2 with rfl | rfl <;>
        rcases hcad with rfl | rfl <;>
          simp only [show "calis".toList = ['c', 'a', 'l', 'i', 's'] from rfl,
            show "meind".toList = ['m', 'e', 'i', 'n', 'd'] from rfl,
            show "raind".toList = ['r', 'a', 'i', 'n', 'd'] from rfl,
            show "apg43".toList = ['a', 'p', 'g', '4', '3'] from rfl,
            List.cons_append, List.nil_append] <;>
          repeat first
            | rw [scanWeekKey_hit ds ('a' :: ys) hds hdig]
            | rw [scanWeekKey_us_skip _ _ (by decide)]
            | rw [scanWeekKey_skip _ _ (by decide)]

/-- On a name matching the MGW pattern, the sort's week-key scan finds
exactly the suffix week. -/
theorem findWeek_of_mgw (s : String) (g ds ys : List Char)
    (hg : ∀ c ∈ g, c.isAlphanum = true)
    (hds : ds ≠ []) (hdig : ∀ c ∈ ds, c.isDigit = true)
    (hlow : low s = g ++ 'm' :: 'g' :: 'w' :: '_' :: 's' :: (ds ++ '_' :: 'a' :: ys)) :
    findWeekKey s = some (natOfDigits ds) := by
  have hg' : ∀ c ∈ g, c ≠ '_' := by
    intro c hc heq
    subst heq
    exact absurd (hg _ hc) (by decide)
  unfold findWeekKey
  rw [hlow, scanWeekKey_append_no_us g _ hg',
    scanWeekKey_skip 'm' _ (by decide), scanWeekKey_skip 'g' _ (by decide),
    scanWeekKey_skip 'w' _ (by decide),
    scanWeekKey_hit ds ('a' :: ys) hds hdig]

/-- Keys of a name accepted by a CALIS/MEIND/RAIND category pattern: the
date-filter suffix regex and both sort keys agree with the pattern's
week/year. -/
theorem keys_of_apgTail (s : String) (node cadDigits rest : List Char) (w y : Nat)
    (hnode : node = "calis".toList ∨ node = "meind".toList ∨ node = "raind".toList)
    (hcad : cadDigits = ['5'] ∨ cadDigits = ['1', '5'])
    (hlowr : low s = node ++ rest)
    (h : parseApgTail (cadDigits ++ '_' :: 's' :: []) rest = some (w, y)) :
    parseSWeekAYear s = some (w, y) ∧ findYearKey s = some y ∧ findWeekKey s = some w := by
  obtain ⟨sep1, sep2, tail, hs1, hs2, hcs, htail⟩ := parseApgTail_some _ _ _ _ h
  obtain ⟨ds, ys, htl, hds, hdig, hy4, hyd, hw, hy⟩ := parseWeekYearEnd_some _ _ _ htail
  obtain ⟨c1, c2, c3, c4, rfl⟩ : ∃ c1 c2 c3 c4, ys = [c1, c2, c3, c4] := by
    rcases ys with _ | ⟨a1, _ | ⟨a2, _ | ⟨a3, _ | ⟨a4, rest'⟩⟩⟩⟩ <;> simp at hy4
    exact ⟨a1, a2, a3, a4, by rw [hy4]⟩
  have h1 : c1.isDigit = true := hyd c1 (by simp)
  have h2 : c2.isDigit = true := hyd c2 (by simp)
  have h3 : c3.isDigit = true := hyd c3 (by simp)
  have h4 : c4.isDigit = true := hyd c4 (by simp)
  have hlow : low s = node ++ sep1 :: ("apg43".toList ++ sep2 ::
      (cadDigits ++ '_' :: 's' :: (ds ++ '_' :: 'a' :: [c1, c2, c3, c4]))) := by
    rw [hlowr, hcs, htl]
    simp [List.append_assoc]
  refine ⟨?_, ?_, ?_⟩
  · rw [hw, hy]
    exact parseSWeekAYear_of_shape s
      (node ++ sep1 :: ("apg43".toList ++ sep2 :: cadDigits)) ds c1 c2 c3 c4
      (by rw [hlow]; simp [List.append_assoc]) hds hdig h1 h2 h3 h4
  · rw [hy]
    exact findYearKey_of_shape s
      (node ++ sep1 :: ("apg43".toList ++ sep2 :: (cadDigits ++ '_' :: 's' :: ds)))
      c1 c2 c3 c4 (by rw [hlow]; simp [List.append_assoc]) h1 h2 h3 h4
  · rw [hw]
    exact findWeek_of_apg s node sep1 sep2 cadDigits ds [c1, c2, c3, c4]
      hnode hs1 hs2 hcad hds hdig hlow

theorem keys_of_parse5min (s : String) (w y : Nat) (h : parse5min s = some (w, y)) :
    parseSWeekAYear s = some (w, y) ∧ findYearKey s = some y ∧ findWeekKey s = some w := by
  have hcad : ("5_s".toList : List Char) = ['5'] ++ '_' :: 's' :: [] := rfl
  unfold parse5min at h
  cases hn1 : dropExact ("calis".toList) (low s) with
  | some rest =>
      rw [hn1] at h
      dsimp only at h
      rw [hcad] at h
      exact keys_of_apgTail s _ ['5'] rest w y (Or.inl rfl) (Or.inl rfl)
        (dropExact_some _ _ _ hn1) h
  | none =>
      rw [hn1] at h
      dsimp only at h
      cases hn2 : dropExact ("meind".toList) (low s) with
      | some rest =>
          rw [hn2] at h
          dsimp only at h
          rw [hcad] at h
          exact keys_of_apgTail s _ ['5'] rest w y (Or.inr (Or.inl rfl)) (Or.inl rfl)
            (dropExact_some _ _ _ hn2) h
      | none =>
          rw [hn2] at h
          dsimp only at h
          cases hn3 : dropExact ("raind".toList) (low s) with
          | some rest =>
              rw [hn3] at h
              dsimp only at h
              rw [hcad] at h
              exact keys_of_apgTail s _ ['5'] rest w y (Or.inr (Or.inr rfl)) (Or.inl rfl)
                (dropExact_some _ _ _ hn3) h
          | none =>
              rw [hn3] at h
              simp at h

theorem keys_of_parse15min (s : String) (w y : Nat) (h : parse15min s = some (w, y)) :
    parseSWeekAYear s = some (w, y) ∧ findYearKey s = some y ∧ findWeekKey s = some w := by
  have hcad : ("15_s".toList : List Char) = ['1', '5'] ++ '_' :: 's' :: [] := rfl
  unfold parse15min at h
  cases hn1 : dropExact ("calis".toList) (low s) with
  | some rest =>
      rw [hn1] at h
      dsimp only at h
      rw [hcad] at h
      exact keys_of_apgTail s _ ['1', '5'] rest w y (Or.inl rfl) (Or.inr rfl)
        (dropExact_some _ _ _ hn1) h
  | none =>
      rw [hn1] at h
      dsimp only at h
      cases hn2 : dropExact ("meind".toList) (low s) with
      | some rest =>
          rw [hn2] at h
          dsimp only at h
          rw [hcad] at h
          exact keys_of_apgTail s _ ['1', '5'] rest w y (Or.inr (Or.inl rfl)) (Or.inr rfl)
            (dropExact_some _ _ _ hn2) h
      | none =>
          rw [hn2] at h
          dsimp only at h
          cases hn3 : dropExact ("raind".toList) (low s) with
          | some rest =>
              rw [hn3] at h
              dsimp only at h
              rw [hcad] at h
              exact keys_of_apgTail s _ ['1', '5'] rest w y (Or.inr (Or.inr rfl)) (Or.inr rfl)
                (dropExact_some _ _ _ hn3) h
          | none =>
              rw [hn3] at h
              simp at h

theorem keys_of_parseMgw (s : String) (w y : Nat) (h : parseMgw s = some (w, y)) :
    parseSWeekAYear s = some (w, y) ∧ findYearKey s = some y ∧ findWeekKey s = some w := by
  unfold parseMgw at h
  generalize hL : (low s).reverse = L at h
  rcases L with _ | ⟨y1, _ | ⟨y2, _ | ⟨y3, _ | ⟨y4, _ | ⟨a, _ | ⟨u, rest⟩⟩⟩⟩⟩⟩
  · simp at h
  · simp at h
  · simp at h
  · simp at h
  · simp at h
  · simp at h
  dsimp only at h
  by_cases hg1 : a = 'a' ∧ u = '_' ∧ y1.isDigit ∧ y2.isDigit ∧ y3.isDigit ∧ y4.isDigit
  case neg => rw [if_neg hg1] at h; simp at h
  rw [if_pos hg1] at h
  obtain ⟨rfl, rfl, hd1, hd2, hd3, hd4⟩ := hg1
  generalize hD : rest.dropWhile Char.isDigit = D at h
  rcases D with _ | ⟨s', _ | ⟨u', _ | ⟨w', _ | ⟨g', _ | ⟨m', grev⟩⟩⟩⟩⟩
  · simp at h
  · simp at h
  · simp at h
  · simp at h
  · simp at h
  dsimp only at h
  by_cases hg2 : rest.takeWhile Char.isDigit ≠ [] ∧ s' = 's' ∧ u' = '_' ∧ w' = 'w' ∧
      g' = 'g' ∧ m' = 'm' ∧ grev ≠ [] ∧ grev.all Char.isAlphanum
  case neg => rw [if_neg hg2] at h; simp at h
  rw [if_pos hg2] at h
  obtain ⟨hdsne, rfl, rfl, rfl, rfl, rfl, hgne, hgal⟩ := hg2
  simp only [Option.some.injEq, Prod.mk.injEq] at h
  obtain ⟨hw, hy⟩ := h
  obtain ⟨dsr, hdsr⟩ : ∃ d, List.takeWhile Char.isDigit rest = d := ⟨_, rfl⟩
  rw [hdsr] at hdsne hw
  have hrest : rest = dsr ++ ('s' :: '_' :: 'w' :: 'g' :: 'm' :: grev) := by
    conv_lhs => rw [← List.takeWhile_append_dropWhile Char.isDigit rest]
    rw [hD, hdsr]
  have hlow : low s = grev.reverse ++ 'm' :: 'g' :: 'w' :: '_' :: 's' ::
      (dsr.reverse ++ '_' :: 'a' :: [y4, y3, y2, y1]) := by
    have h0 := congrArg List.reverse hL
    rw [List.reverse_reverse] at h0
    rw [h0, hrest]
    simp [List.append_assoc]
  have hdigits : ∀ c ∈ dsr.reverse, c.isDigit = true := by
    intro c hc
    have hc' : c ∈ dsr := List.mem_reverse.mp hc
    rw [← hdsr] at hc'
    exact List.mem_takeWhile_imp hc'
  have hdsrne : dsr.reverse ≠ [] := by simpa using hdsne
  have hgrev : ∀ c ∈ grev.reverse, c.isAlphanum = true := fun c hc =>
    List.all_eq_true.mp hgal c (List.mem_reverse.mp hc)
  refine ⟨?_, ?_, ?_⟩
  · rw [← hw, ← hy]
    exact parseSWeekAYear_of_shape s (grev.reverse ++ ['m', 'g', 'w'])
      dsr.reverse y4 y3 y2 y1
      (by rw [hlow]; simp [List.append_assoc]) hdsrne hdigits hd4 hd3 hd2 hd1
  · rw [← hy]
    exact findYearKey_of_shape s
      (grev.reverse ++ 'm' :: 'g' :: 'w' :: '_' :: 's' :: dsr.reverse)
      y4 y3 y2 y1 (by rw [hlow]; simp [List.append_assoc]) hd4 hd3 hd2 hd1
  · rw [← hw]
    exact findWeek_of_mgw s grev.reverse dsr.reverse
      [y4, y3, y2, y1] hgrev hdsrne hdigits hlow

theorem sortKey_of_match5 (s : String) (h : matches5min s = true) :
    ∃ w y, parseSWeekAYear s = some (w, y) ∧ sortKey s = some (y, w) := by
  unfold matches5min at h
  obtain ⟨⟨w, y⟩, hp⟩ := Option.isSome_iff_exists.mp h
  obtain ⟨h1, h2, h3⟩ := keys_of_parse5min s w y hp
  exact ⟨w, y, h1, by simp [sortKey, h2, h3]⟩

theorem sortKey_of_match15 (s : String) (h : matches15min s = true) :
    ∃ w y, parseSWeekAYear s = some (w, y) ∧ sortKey s = some (y, w) := by
  unfold matches15min at h
  obtain ⟨⟨w, y⟩, hp⟩ := Option.isSome_iff_exists.mp h
  obtain ⟨h1, h2, h3⟩ := keys_of_parse15min s w y hp
  exact ⟨w, y, h1, by simp [sortKey, h2, h3]⟩

theorem sortKey_of_matchMgw (s : String) (h : matchesMgw s = true) :
    ∃ w y, parseSWeekAYear s = some (w, y) ∧ sortKey s = some (y, w) := by
  unfold matchesMgw at h
  obtain ⟨⟨w, y⟩, hp⟩ := Option.isSome_iff_exists.mp h
  obtain ⟨h1, h2, h3⟩ := keys_of_parseMgw s w y hp
  exact ⟨w, y, h1, by simp [sortKey, h2, h3]⟩

theorem keyLe_total (a b : String) : (keyLe a b || keyLe b a) = true := by
  unfold keyLe pairLe
  simp only [Bool.or_eq_true, Bool.and_eq_true, decide_eq_true_eq]
  omega

theorem keyLe_trans (a b c : String) :
    keyLe a b = true → keyLe b c = true → keyLe a c = true := by
  unfold keyLe pairLe
  simp only [Bool.or_eq_true, Bool.and_eq_true, decide_eq_true_eq]
  omega

theorem sort_some_of_keys (ts : List String) (h : ∀ t ∈ ts, (sortKey t).isSome = true) :
    sort_by_year_and_week ts = some (ts.mergeSort keyLe) := by
  unfold sort_by_year_and_week
  rw [if_pos (List.all_eq_true.mpr h)]

/-- **C8.** For every input list of source table names and every cutoff date,
`process_tables_names` succeeds (tables with no resolvable week/year are
dropped, never failing the run) and produces, per category, exactly those
input tables that match the category's naming pattern and whose
`_S{week}_A{year}` suffix resolves via `strptime` (the Monday of week `week`
of year `year`) to a date on/after the cutoff, sorted ascending by the
`(year, week)` sort keys — which on every selected table agree with the
suffix's week/year. -/
theorem C8_table_selection (tableNames : List String) (start : Int) :
    ∃ out : TablesNamesOut,
      process_tables_names tableNames start = some out ∧
      (∀ t, t ∈ out.sorted5min ↔
        (t ∈ tableNames ∧ matches5min t = true ∧ dateOK start t = true)) ∧
      (∀ t, t ∈ out.sorted15min ↔
        (t ∈ tableNames ∧ matches15min t = true ∧ dateOK start t = true)) ∧
      (∀ t, t ∈ out.sortedMgw ↔
        (t ∈ tableNames ∧ matchesMgw t = true ∧ dateOK start t = true)) ∧
      List.Pairwise (fun a b => keyLe a b = true) out.sorted5min ∧
      List.Pairwise (fun a b => keyLe a b = true) out.sorted15min ∧
      List.Pairwise (fun a b => keyLe a b = true) out.sortedMgw ∧
      (∀ t ∈ out.sorted5min, ∃ w y, parseSWeekAYear t = some (w, y) ∧
        sortKey t = some (y, w)) ∧
      (∀ t, t ∈ out.result ↔ t ∈ out.sorted5min) ∧
      List.Pairwise (fun a b => keyLe a b = true) out.result := by
  have hmem5 : ∀ t, t ∈ filter_by_start_date (filter_tables matches5min tableNames) start ↔
      (t ∈ tableNames ∧ matches5min t = true ∧ dateOK start t = true) := by
    intro t
    unfold filter_by_start_date filter_tables
    simp only [List.mem_filter, and_assoc]
  have hmem15 : ∀ t, t ∈ filter_by_start_date (filter_tables matches15min tableNames) start ↔
      (t ∈ tableNames ∧ matches15min t = true ∧ dateOK start t = true) := by
    intro t
    unfold filter_by_start_date filter_tables
    simp only [List.mem_filter, and_assoc]
  have hmemM : ∀ t, t ∈ filter_by_start_date (filter_tables matchesMgw tableNames) start ↔
      (t ∈ tableNames ∧ matchesMgw t = true ∧ dateOK start t = true) := by
    intro t
    unfold filter_by_start_date filter_tables
    simp only [List.mem_filter, and_assoc]
  have hall5 : ∀ t ∈ filter_by_start_date (filter_tables matches5min tableNames) start,
      (sortKey t).isSome = true := by
    intro t ht
    obtain ⟨w, y, _, hk⟩ := sortKey_of_match5 t ((hmem5 t).mp ht).2.1
    simp [hk]
  have hall15 : ∀ t ∈ filter_by_start_date (filter_tables matches15min tableNames) start,
      (sortKey t).isSome = true := by
    intro t ht
    obtain ⟨w, y, _, hk⟩ := sortKey_of_match15 t ((hmem15 t).mp ht).2.1
    simp [hk]
  have hallM : ∀ t ∈ filter_by_start_date (filter_tables matchesMgw tableNames) start,
      (sortKey t).isSome = true := by
    intro t ht
    obtain ⟨w, y, _, hk⟩ := sortKey_of_matchMgw t ((hmemM t).mp ht).2.1
    simp [hk]
  have hs5 := sort_some_of_keys _ hall5
  have hs15 := sort_some_of_keys _ hall15
  have hsM := sort_some_of_keys _ hallM
  have hmemS5 : ∀ t,
      t ∈ (filter_by_start_date (filter_tables matches5min tableNames) start).mergeSort keyLe ↔
      t ∈ filter_by_start_date (filter_tables matches5min tableNames) start := fun t =>
    (List.mergeSort_perm _ keyLe).mem_iff
  have hallS5 : ∀ t ∈ (filter_by_start_date (filter_tables matches5min tableNames)
      start).mergeSort keyLe, (sortKey t).isSome = true :=
    fun t ht => hall5 t ((hmemS5 t).mp ht)
  have huni := sort_some_of_keys _ hallS5
  refine ⟨⟨(filter_by_start_date (filter_tables matches5min tableNames) start).mergeSort keyLe,
    (filter_by_start_date (filter_tables matches15min tableNames) start).mergeSort keyLe,
    (filter_by_start_date (filter_tables matchesMgw tableNames) start).mergeSort keyLe,
    ((filter_by_start_date (filter_tables matches5min tableNames) start).mergeSort
      keyLe).mergeSort keyLe⟩, ?_, ?_, ?_, ?_, ?_, ?_, ?_, ?_, ?_, ?_⟩
  · unfold process_tables_names
    rw [hs5, hs15, hsM]
    dsimp only
    rw [huni]
  · intro t
    exact (hmemS5 t).trans (hmem5 t)
  · intro t
    exact ((List.mergeSort_perm _ keyLe).mem_iff).trans (hmem15 t)
  · intro t
    exact ((List.mergeSort_perm _ keyLe).mem_iff).trans (hmemM t)
  · exact List.sorted_mergeSort keyLe_trans keyLe_total _
  · exact List.sorted_mergeSort keyLe_trans keyLe_total _
  · exact List.sorted_mergeSort keyLe_trans keyLe_total _
  · intro t ht
    exact sortKey_of_match5 t ((hmem5 t).mp ((hmemS5 t).mp ht)).2.1
  · intro t
    exact (List.mergeSort_perm _ keyLe).mem_iff
  · exact List.sorted_mergeSort keyLe_trans keyLe_total _

end OrangeSystem
